import Mathlib

/-!
AVL tree of `AVLTree.cpp`: shallow embedding and verified properties

The C++ class `AVLTree<t1, t2>` keeps a single `Node *root`.  A `Node *` is
embedded as the inductive type `Node K V` (`null` for the null pointer), with
the fields `key`, `value`, `left`, `right` and the stored `height` of the
source.  The `parent` back-reference is written by `insert` and by the
rotations but read only by the iterators, so the functions embedded here
(lookup, insert, rotations, remove) do not depend on it and it is left out of
this part of the model.  The iterators, `operator==` and the copy constructor read it;
they are embedded over `PNode`, the same tree with addresses and `parent` fields.

Dereferencing a null pointer and throwing `std::invalid_argument` are made
explicit: every function that can do either returns `Except Fault _`.
-/

set_option autoImplicit false

/-- Ways in which a call of the source fails to return normally. -/
inductive Fault where
  /-- The exception `std::invalid_argument` thrown by `operator[]` and `operator()`. -/
  | invalidArgument
  /-- The statement `searchKey(x)->value` of `remove(t1)` dereferences a null result. -/
  | nullLookup
  /-- The rotations and the rebalancing tests dereference a child that is null. -/
  | nullChild
  /-- A pointer to a node that is not, or no longer, a node of the tree is dereferenced. -/
  | dangling
  deriving DecidableEq, Repr

/-- The pointer type `Node *`: `null`, or a node with the fields of `struct Node`
(the stored `height` is a plain `int` field, recomputed by the code). -/
inductive Node (K V : Type) where
  | null : Node K V
  | mk (key : K) (value : V) (left right : Node K V) (height : Int) : Node K V
  deriving DecidableEq, Repr

/-- The class `AVLTree`: its only data member is `root`. -/
structure AVLTree (K V : Type) where
  root : Node K V
  deriving DecidableEq, Repr

namespace Node

variable {K V : Type}

/-- Source `height(Node*)`: `node == NULL ? -1 : node->height`. -/
def height : Node K V → Int
  | null => -1
  | mk _ _ _ _ h => h

/-- Source `findMin`: the leftmost node of the subtree, null for the null subtree. -/
def findMin : Node K V → Node K V
  | null => null
  | mk k v null r h => mk k v null r h
  | mk _ _ (mk lk lv ll lr lh) _ _ => findMin (mk lk lv ll lr lh)

/-- Source `findMax`: the rightmost node of the subtree, null for the null subtree. -/
def findMax : Node K V → Node K V
  | null => null
  | mk k v l null h => mk k v l null h
  | mk _ _ _ (mk rk rv rl rr rh) _ => findMax (mk rk rv rl rr rh)

/-- Source `singleRightRotate`: `tmp = node->left` becomes the root, `node` its right
child, and `tmp->right` the left child of `node`; the height of `node` is recomputed
first, then that of `tmp`.  A null `node` or a null `node->left` is dereferenced. -/
def singleRightRotate : Node K V → Except Fault (Node K V)
  | mk k v (mk lk lv ll lr _) r _ =>
      let nodeHeight := max (height lr) (height r) + 1
      .ok (mk lk lv ll (mk k v lr r nodeHeight) (max (height ll) nodeHeight + 1))
  | _ => .error Fault.nullChild

/-- Source `singleLeftRotate`.  The last assignment of the source reads
`tmp->height = max(height(node->right), node->height) + 1`, where `node->right` is by
then the former `tmp->left`. -/
def singleLeftRotate : Node K V → Except Fault (Node K V)
  | mk k v l (mk rk rv rl rr _) _ =>
      let nodeHeight := max (height l) (height rl) + 1
      .ok (mk rk rv (mk k v l rl nodeHeight) rr (max (height rl) nodeHeight + 1))
  | _ => .error Fault.nullChild

/-- Source `doubleLeftRotate`: `node->right = singleRightRotate(node->right)` and then
`singleLeftRotate(node)`. -/
def doubleLeftRotate : Node K V → Except Fault (Node K V)
  | null => .error Fault.nullChild
  | mk k v l r h =>
      match singleRightRotate r with
      | .error e => .error e
      | .ok r' => singleLeftRotate (mk k v l r' h)

/-- Source `doubleRightRotate`: `node->left = singleLeftRotate(node->left)` and then
`singleRightRotate(node)`. -/
def doubleRightRotate : Node K V → Except Fault (Node K V)
  | null => .error Fault.nullChild
  | mk k v l r h =>
      match singleLeftRotate l with
      | .error e => .error e
      | .ok l' => singleRightRotate (mk k v l' r h)

/-- Last two lines of the recursive `insert`:
`node->height = max(height(node->left), height(node->right)) + 1; return node;`. -/
def setHeight : Node K V → Except Fault (Node K V)
  | null => .error Fault.nullChild
  | mk k v l r _ => .ok (mk k v l r (max (height l) (height r) + 1))

/-- Lines 128-133 of the source: the test and the choice of rotation after an insertion
into the left subtree (`node->left` is already the new left child). -/
def insertFixLeft [LinearOrder K] (key : K) : Node K V → Except Fault (Node K V)
  | null => .error Fault.nullChild
  | mk k v l r h =>
      if height l - height r = 2 then
        match l with
        | null => .error Fault.nullChild
        | mk lk _ _ _ _ =>
            if key < lk then singleRightRotate (mk k v l r h)
            else doubleRightRotate (mk k v l r h)
      else .ok (mk k v l r h)

/-- Lines 138-143 of the source: the test and the choice of rotation after an insertion
into the right subtree. -/
def insertFixRight [LinearOrder K] (key : K) : Node K V → Except Fault (Node K V)
  | null => .error Fault.nullChild
  | mk k v l r h =>
      if height r - height l = 2 then
        match r with
        | null => .error Fault.nullChild
        | mk rk _ _ _ _ =>
            if key > rk then singleLeftRotate (mk k v l r h)
            else doubleLeftRotate (mk k v l r h)
      else .ok (mk k v l r h)

/-- Source `insert(t1 key, t2 value, Node *node)`. -/
def insert [LinearOrder K] (key : K) (value : V) : Node K V → Except Fault (Node K V)
  | null => setHeight (mk key value null null 0)
  | mk k v l r h =>
      if key < k then
        match insert key value l with
        | .error e => .error e
        | .ok l' =>
            match insertFixLeft key (mk k v l' r h) with
            | .error e => .error e
            | .ok n => setHeight n
      else if key > k then
        match insert key value r with
        | .error e => .error e
        | .ok r' =>
            match insertFixRight key (mk k v l r' h) with
            | .error e => .error e
            | .ok n => setHeight n
      else setHeight (mk k v l r h)

/-- Lines 254-265 of the source, the tail of the recursive `remove`: return a null
`node` as it is, otherwise recompute its height and rebalance.  The rotations called
are those the source calls. -/
def removeFix : Node K V → Except Fault (Node K V)
  | null => .ok null
  | mk k v l r _ =>
      let node := mk k v l r (max (height l) (height r) + 1)
      if height l - height r = 2 then
        match l with
        | null => .error Fault.nullChild
        | mk _ _ ll lr _ =>
            if height ll - height lr = 1 then singleLeftRotate node
            else doubleLeftRotate node
      else if height r - height l = 2 then
        match r with
        | null => .error Fault.nullChild
        | mk _ _ rl rr _ =>
            if height rr - height rl = 1 then singleRightRotate node
            else doubleRightRotate node
      else .ok node

/-- Source `remove(t1 key, t2 value, Node *node)`. -/
def remove [LinearOrder K] (key : K) (value : V) : Node K V → Except Fault (Node K V)
  | null => .ok null
  | mk k v l r h =>
      if key < k then
        match remove key value l with
        | .error e => .error e
        | .ok l' => removeFix (mk k v l' r h)
      else if key > k then
        match remove key value r with
        | .error e => .error e
        | .ok r' => removeFix (mk k v l r' h)
      else
        match l, r with
        | null, _ => removeFix r
        | mk lk lv ll lr lh, null => removeFix (mk lk lv ll lr lh)
        | mk lk lv ll lr lh, mk rk rv rl rr rh =>
            match findMin (mk rk rv rl rr rh) with
            | null => .error Fault.nullChild
            | mk sk sv _ _ _ =>
                match remove sk sv (mk rk rv rl rr rh) with
                | .error e => .error e
                | .ok r' => removeFix (mk sk sv (mk lk lv ll lr lh) r' h)

/-- Source `findKey`. -/
def findKey [LinearOrder K] (key : K) : Node K V → Node K V
  | null => null
  | mk k v l r h =>
      if k = key then mk k v l r h
      else if key > k then findKey key r
      else findKey key l

/-- In-order traversal (left subtree, node, right subtree) as a list of pairs. -/
def inorder : Node K V → List (K × V)
  | null => []
  | mk k v l r _ => inorder l ++ (k, v) :: inorder r

/-- Height of the tree as a shape: `-1` for the null tree, a leaf has height `0`. -/
def depth : Node K V → Int
  | null => -1
  | mk _ _ l r _ => max (depth l) (depth r) + 1

/-- BST ordering: at every node all keys of the left subtree are strictly less and all
keys of the right subtree strictly greater than the key of the node. -/
def BST [LinearOrder K] : Node K V → Prop
  | null => True
  | mk k _ l r _ =>
      (∀ p ∈ inorder l, p.1 < k) ∧ (∀ p ∈ inorder r, k < p.1) ∧ BST l ∧ BST r

/-- AVL balance on the stored heights: `|height(left) - height(right)| ≤ 1` at every node. -/
def Balanced : Node K V → Prop
  | null => True
  | mk _ _ l r _ => (height l - height r).natAbs ≤ 1 ∧ Balanced l ∧ Balanced r

/-- AVL balance on the shape: the depths of the two subtrees of every node differ by at
most one. -/
def DepthBalanced : Node K V → Prop
  | null => True
  | mk _ _ l r _ => (depth l - depth r).natAbs ≤ 1 ∧ DepthBalanced l ∧ DepthBalanced r

/-- Height-field correctness: every node stores `1 + max(height(left), height(right))`. -/
def HeightOK : Node K V → Prop
  | null => True
  | mk _ _ l r h => h = 1 + max (height l) (height r) ∧ HeightOK l ∧ HeightOK r

/-- The keys stored in the tree, in in-order. -/
def keys (t : Node K V) : List K :=
  (inorder t).map Prod.fst

/-- A list of pairs is strictly ascending by key. -/
def Ascending [LinearOrder K] (ps : List (K × V)) : Prop :=
  ps.Pairwise (fun p q => p.1 < q.1)

/-- The list `ps` with the pair `(key, value)` added at its sorted position: in front of
the first pair whose key is greater than `key`. -/
def insertSorted [LinearOrder K] (key : K) (value : V) : List (K × V) → List (K × V)
  | [] => [(key, value)]
  | p :: rest =>
      if key < p.1 then (key, value) :: p :: rest else p :: insertSorted key value rest

/-- The list `ps` without the pairs whose key is `key`. -/
def eraseKey [LinearOrder K] (key : K) (ps : List (K × V)) : List (K × V) :=
  ps.filter (fun p => decide (p.1 ≠ key))

instance decidableBST [LinearOrder K] : (t : Node K V) → Decidable (BST t)
  | null => isTrue trivial
  | mk k _ l r _ =>
      have := decidableBST l
      have := decidableBST r
      inferInstanceAs (Decidable
        ((∀ p ∈ inorder l, p.1 < k) ∧ (∀ p ∈ inorder r, k < p.1) ∧ BST l ∧ BST r))

instance decidableBalanced : (t : Node K V) → Decidable (Balanced t)
  | null => isTrue trivial
  | mk _ _ l r _ =>
      have := decidableBalanced l
      have := decidableBalanced r
      inferInstanceAs (Decidable
        ((height l - height r).natAbs ≤ 1 ∧ Balanced l ∧ Balanced r))

instance decidableDepthBalanced : (t : Node K V) → Decidable (DepthBalanced t)
  | null => isTrue trivial
  | mk _ _ l r _ =>
      have := decidableDepthBalanced l
      have := decidableDepthBalanced r
      inferInstanceAs (Decidable
        ((depth l - depth r).natAbs ≤ 1 ∧ DepthBalanced l ∧ DepthBalanced r))

instance decidableHeightOK : (t : Node K V) → Decidable (HeightOK t)
  | null => isTrue trivial
  | mk _ _ l r h =>
      have := decidableHeightOK l
      have := decidableHeightOK r
      inferInstanceAs (Decidable
        (h = 1 + max (height l) (height r) ∧ HeightOK l ∧ HeightOK r))

/-- The subtree on the side of its root where `key` belongs is strictly the taller one. -/
def Leans [LinearOrder K] (key : K) : Node K V → Prop
  | null => False
  | mk k _ l r _ => (key < k ∧ height r < height l) ∨ (k < key ∧ height l < height r)

end Node

namespace AVLTree

variable {K V : Type}

/-- The default constructor: `root = NULL`. -/
def empty : AVLTree K V := ⟨Node.null⟩

/-- Source `insert(t1 x, t2 y)`: `root = insert(x, y, root)`. -/
def insert [LinearOrder K] (t : AVLTree K V) (x : K) (y : V) : Except Fault (AVLTree K V) :=
  match Node.insert x y t.root with
  | .error e => .error e
  | .ok r => .ok ⟨r⟩

/-- Source `searchKey`. -/
def searchKey [LinearOrder K] (t : AVLTree K V) (key : K) : Node K V :=
  Node.findKey key t.root

/-- Source `remove(t1 x)`: `t2 y = searchKey(x)->value; root = remove(x, y, root)`. -/
def remove [LinearOrder K] (t : AVLTree K V) (x : K) : Except Fault (AVLTree K V) :=
  match t.searchKey x with
  | Node.null => .error Fault.nullLookup
  | Node.mk _ y _ _ _ =>
      match Node.remove x y t.root with
      | .error e => .error e
      | .ok r => .ok ⟨r⟩

/-- Source `operator[]`: throws `invalid_argument` when `searchKey(key)` is null, and
returns `searchKey(key)->value` otherwise. -/
def subscript [LinearOrder K] (t : AVLTree K V) (key : K) : Except Fault V :=
  match t.searchKey key with
  | Node.null => .error Fault.invalidArgument
  | Node.mk _ v _ _ _ => .ok v

/-- Source `begin()`: the leftmost node of the tree, null for the empty tree. -/
def begin (t : AVLTree K V) : Node K V :=
  Node.findMin t.root

/-- The loop `for (...) tree->insert(key, value)` of `main`: the pairs are inserted in
list order, and the run stops at the first call that fails. -/
def insertAll [LinearOrder K] : AVLTree K V → List (K × V) → Except Fault (AVLTree K V)
  | t, [] => .ok t
  | t, (k, v) :: rest =>
      match t.insert k v with
      | .error e => .error e
      | .ok t' => insertAll t' rest

/-- The loop `for (...) tree->remove(key)` of `main`: the keys are removed in list
order, and the run stops at the first call that fails. -/
def removeAll [LinearOrder K] : AVLTree K V → List K → Except Fault (AVLTree K V)
  | t, [] => .ok t
  | t, k :: rest =>
      match t.remove k with
      | .error e => .error e
      | .ok t' => removeAll t' rest

/-- A run that returned a value satisfying `P`; a run that failed does not hold. -/
def Returns {α : Type} (P : α → Prop) : Except Fault α → Prop
  | .ok a => P a
  | .error _ => False

instance decidableReturns {α : Type} (P : α → Prop) [DecidablePred P] :
    (r : Except Fault α) → Decidable (Returns P r)
  | .ok a => inferInstanceAs (Decidable (P a))
  | .error _ => isFalse (fun h => h)

/-- A balanced three-node tree: root 2 with the leaves 1 and 5. -/
def threeNodes : AVLTree Int String :=
  ⟨Node.mk 2 "b" (Node.mk 1 "a" Node.null Node.null 0) (Node.mk 5 "e" Node.null Node.null 0) 1⟩

/-- The tree `threeNodes` after `remove(2)`: the successor 5 has taken the place of 2. -/
def threeNodesWithout2 : AVLTree Int String :=
  ⟨Node.mk 5 "e" (Node.mk 1 "a" Node.null Node.null 0) Node.null 1⟩

/-- A two-node tree: root 2 with the left leaf 1. -/
def leftChain : AVLTree Int String :=
  ⟨Node.mk 2 "b" (Node.mk 1 "a" Node.null Node.null 0) Node.null 1⟩

/-- The tree built by inserting the keys 2, 1, 3, 4 in this order: root 2, left leaf 1,
right child 3 with the right leaf 4. -/
def rightHeavy : AVLTree Int String :=
  ⟨Node.mk 2 "b" (Node.mk 1 "a" Node.null Node.null 0)
    (Node.mk 3 "c" Node.null (Node.mk 4 "d" Node.null Node.null 0) 1) 2⟩

/-- The tree built by inserting the keys 5, 3, 6, 2, 4, 7, 1 in this order: root 5, left
subtree 3 (children 2, with left leaf 1, and 4), right subtree 6 with the right leaf 7. -/
def leftHeavy : AVLTree Int String :=
  ⟨Node.mk 5 "e"
    (Node.mk 3 "c" (Node.mk 2 "b" (Node.mk 1 "a" Node.null Node.null 0) Node.null 1)
      (Node.mk 4 "d" Node.null Node.null 0) 2)
    (Node.mk 6 "f" Node.null (Node.mk 7 "g" Node.null Node.null 0) 1) 3⟩

/-- The tree built by `insert` of the pairs (2, 20), (1, 30), (3, 10) in this order: the
values descend while the keys ascend. -/
def descendingValues : AVLTree Int Int :=
  ⟨Node.mk 2 20 (Node.mk 1 30 Node.null Node.null 0) (Node.mk 3 10 Node.null Node.null 0) 1⟩

/-- The fifteen pairs that `main` inserts: key `i + 1` with `plants[i]`. -/
def plants : List (Int × String) :=
  [(1, "arbuz"), (2, "banan"), (3, "cytryna"), (4, "dynia"), (5, "eukaliptus"),
   (6, "fasola"), (7, "groszek"), (8, "hiacynt"), (9, "irys"), (10, "jablko"),
   (11, "koper"), (12, "lilia"), (13, "mango"), (14, "nektarynka"), (15, "orzech")]

/-- The keys that `main` removes from `treeRemovedOddElements`, in the order of its loop. -/
def oddKeys : List Int := [1, 3, 5, 7, 9, 11, 13, 15]

end AVLTree


/-! ## The tree with its parent back-references

Second embedding of `struct Node`, for the code that reads `parent`: every node carries
the address it was allocated at, and `parent` holds the address of another node (or
nothing for `NULL`).  Child pointers stay structural, because the tree owns its nodes.
`PNode.erase` forgets addresses and parents and gives the `Node` of the first embedding. -/

/-- Address of a heap node; `Option Addr` is a pointer value, `none` is the null pointer. -/
abbrev Addr := Nat

/-- The pointer type `Node *` with the node identity and the `parent` field made explicit. -/
inductive PNode (K V : Type) where
  | null : PNode K V
  | mk (addr : Addr) (key : K) (value : V) (parent : Option Addr)
      (left right : PNode K V) (height : Int) : PNode K V
  deriving DecidableEq, Repr

namespace PNode

variable {K V : Type}

/-- The pointer value of a `Node *`: the address of the node, `none` for `NULL`. -/
def rootAddr : PNode K V → Option Addr
  | null => none
  | mk a _ _ _ _ _ _ => some a

/-- Source `height(Node*)`: `node == NULL ? -1 : node->height`. -/
def height : PNode K V → Int
  | null => -1
  | mk _ _ _ _ _ _ h => h

/-- The guarded assignment `if (child != nullptr) child->parent = p` of the rotations. -/
def setParent (p : Option Addr) : PNode K V → PNode K V
  | null => null
  | mk a k v _ l r h => mk a k v p l r h

/-- The tree without addresses and parent fields. -/
def erase : PNode K V → Node K V
  | null => Node.null
  | mk _ k v _ l r h => Node.mk k v (erase l) (erase r) h

/-- In-order list of the nodes: address, key and value of each. -/
def entries : PNode K V → List (Addr × K × V)
  | null => []
  | mk a k v _ l r _ => entries l ++ (a, k, v) :: entries r

/-- In-order list of the addresses of the nodes. -/
def addrs (t : PNode K V) : List Addr :=
  (entries t).map Prod.fst

/-- Number of nodes. -/
def size : PNode K V → Nat
  | null => 0
  | mk _ _ _ _ l r _ => size l + size r + 1

/-- Dereference of a pointer into the tree: the node of `t` allocated at `a`, or `null`
when no node of the tree has this address (the pointer dangles). -/
def deref (a : Addr) : PNode K V → PNode K V
  | null => null
  | mk na k v p l r h =>
      if na = a then mk na k v p l r h
      else
        match deref a l with
        | null => deref a r
        | mk fa fk fv fp fl fr fh => mk fa fk fv fp fl fr fh

/-- Source `findMin`; it is also the descent `while (curr->left != NULL)` of `begin()` and
of `operator++`. -/
def findMin : PNode K V → PNode K V
  | null => null
  | mk a k v p null r h => mk a k v p null r h
  | mk _ _ _ _ (mk la lk lv lp ll lr lh) _ _ => findMin (mk la lk lv lp ll lr lh)

/-- Source `findMax`; it is also the descent `while (it->right != nullptr)` of
`operator--`. -/
def findMax : PNode K V → PNode K V
  | null => null
  | mk a k v p l null h => mk a k v p l null h
  | mk _ _ _ _ _ (mk ra rk rv rp rl rr rh) _ => findMax (mk ra rk rv rp rl rr rh)

/-- Source `singleRightRotate`, with its four assignments to `parent` fields. -/
def singleRightRotate : PNode K V → Except Fault (PNode K V)
  | mk a k v p (mk la lk lv _ ll lr _) r _ =>
      let nodeHeight := max (height lr) (height r) + 1
      .ok (mk la lk lv p ll (mk a k v (some la) (setParent (some a) lr) r nodeHeight)
        (max (height ll) nodeHeight + 1))
  | _ => .error Fault.nullChild

/-- Source `singleLeftRotate`, with its four assignments to `parent` fields and its last
assignment `tmp->height = max(height(node->right), node->height) + 1`. -/
def singleLeftRotate : PNode K V → Except Fault (PNode K V)
  | mk a k v p l (mk ra rk rv _ rl rr _) _ =>
      let nodeHeight := max (height l) (height rl) + 1
      .ok (mk ra rk rv p (mk a k v (some ra) l (setParent (some a) rl) nodeHeight) rr
        (max (height rl) nodeHeight + 1))
  | _ => .error Fault.nullChild

/-- Source `doubleLeftRotate`. -/
def doubleLeftRotate : PNode K V → Except Fault (PNode K V)
  | null => .error Fault.nullChild
  | mk a k v p l r h =>
      match singleRightRotate r with
      | .error e => .error e
      | .ok r' => singleLeftRotate (mk a k v p l r' h)

/-- Source `doubleRightRotate`. -/
def doubleRightRotate : PNode K V → Except Fault (PNode K V)
  | null => .error Fault.nullChild
  | mk a k v p l r h =>
      match singleLeftRotate l with
      | .error e => .error e
      | .ok l' => singleRightRotate (mk a k v p l' r h)

/-- Last two lines of the recursive `insert`: the height of `node` is recomputed. -/
def setHeight : PNode K V → Except Fault (PNode K V)
  | null => .error Fault.nullChild
  | mk a k v p l r _ => .ok (mk a k v p l r (max (height l) (height r) + 1))

/-- The assignment `leftChild->parent = node` (`rightChild->parent = node`) of `insert`,
which dereferences the child without a test. -/
def linkChild (p : Addr) : PNode K V → Except Fault (PNode K V)
  | null => .error Fault.nullChild
  | mk a k v _ l r h => .ok (mk a k v (some p) l r h)

/-- Lines 128-133 of the source, as `Node.insertFixLeft`. -/
def insertFixLeft [LinearOrder K] (key : K) : PNode K V → Except Fault (PNode K V)
  | null => .error Fault.nullChild
  | mk a k v p l r h =>
      if height l - height r = 2 then
        match l with
        | null => .error Fault.nullChild
        | mk _ lk _ _ _ _ _ =>
            if key < lk then singleRightRotate (mk a k v p l r h)
            else doubleRightRotate (mk a k v p l r h)
      else .ok (mk a k v p l r h)

/-- Lines 138-143 of the source, as `Node.insertFixRight`. -/
def insertFixRight [LinearOrder K] (key : K) : PNode K V → Except Fault (PNode K V)
  | null => .error Fault.nullChild
  | mk a k v p l r h =>
      if height r - height l = 2 then
        match r with
        | null => .error Fault.nullChild
        | mk _ rk _ _ _ _ _ =>
            if key > rk then singleLeftRotate (mk a k v p l r h)
            else doubleLeftRotate (mk a k v p l r h)
      else .ok (mk a k v p l r h)

/-- Source `insert(t1 key, t2 value, Node *node)`.  `fresh` is the address that
`new Node` returns if the call allocates a node; its `parent` is set to `NULL`. -/
def insert [LinearOrder K] (fresh : Addr) (key : K) (value : V) :
    PNode K V → Except Fault (PNode K V)
  | null => setHeight (mk fresh key value none null null 0)
  | mk a k v p l r h =>
      if key < k then
        match insert fresh key value l with
        | .error e => .error e
        | .ok l' =>
            match linkChild a l' with
            | .error e => .error e
            | .ok l'' =>
                match insertFixLeft key (mk a k v p l'' r h) with
                | .error e => .error e
                | .ok n => setHeight n
      else if key > k then
        match insert fresh key value r with
        | .error e => .error e
        | .ok r' =>
            match linkChild a r' with
            | .error e => .error e
            | .ok r'' =>
                match insertFixRight key (mk a k v p l r'' h) with
                | .error e => .error e
                | .ok n => setHeight n
      else setHeight (mk a k v p l r h)

/-- Lines 254-265 of the source, as `Node.removeFix`. -/
def removeFix : PNode K V → Except Fault (PNode K V)
  | null => .ok null
  | mk a k v p l r _ =>
      let node := mk a k v p l r (max (height l) (height r) + 1)
      if height l - height r = 2 then
        match l with
        | null => .error Fault.nullChild
        | mk _ _ _ _ ll lr _ =>
            if height ll - height lr = 1 then singleLeftRotate node
            else doubleLeftRotate node
      else if height r - height l = 2 then
        match r with
        | null => .error Fault.nullChild
        | mk _ _ _ _ rl rr _ =>
            if height rr - height rl = 1 then singleRightRotate node
            else doubleRightRotate node
      else .ok node

/-- Source `remove(t1 key, t2 value, Node *node)`.  No branch assigns a `parent` field:
the node that takes the place of a removed node keeps the `parent` it had. -/
def remove [LinearOrder K] (key : K) (value : V) : PNode K V → Except Fault (PNode K V)
  | null => .ok null
  | mk a k v p l r h =>
      if key < k then
        match remove key value l with
        | .error e => .error e
        | .ok l' => removeFix (mk a k v p l' r h)
      else if key > k then
        match remove key value r with
        | .error e => .error e
        | .ok r' => removeFix (mk a k v p l r' h)
      else
        match l, r with
        | null, _ => removeFix r
        | mk la lk lv lp ll lr lh, null => removeFix (mk la lk lv lp ll lr lh)
        | mk la lk lv lp ll lr lh, mk ra rk rv rp rl rr rh =>
            match findMin (mk ra rk rv rp rl rr rh) with
            | null => .error Fault.nullChild
            | mk _ sk sv _ _ _ _ =>
                match remove sk sv (mk ra rk rv rp rl rr rh) with
                | .error e => .error e
                | .ok r' => removeFix (mk a sk sv p (mk la lk lv lp ll lr lh) r' h)

/-- Source `findKey`. -/
def findKey [LinearOrder K] (key : K) : PNode K V → PNode K V
  | null => null
  | mk a k v p l r h =>
      if k = key then mk a k v p l r h
      else if key > k then findKey key r
      else findKey key l

/-- Source `remove(t1 x)` on the root: `t2 y = searchKey(x)->value; root = remove(x, y, root)`. -/
def removeKey [LinearOrder K] (x : K) (root : PNode K V) : Except Fault (PNode K V) :=
  match findKey x root with
  | null => .error Fault.nullLookup
  | mk _ _ y _ _ _ _ => remove x y root

/-- Source `begin()`: the pointer to the leftmost node, `NULL` for the empty tree. -/
def begin (root : PNode K V) : Option Addr :=
  rootAddr (findMin root)

/-- Source `last()`: the pointer to the rightmost node, `NULL` for the empty tree. -/
def last (root : PNode K V) : Option Addr :=
  rootAddr (findMax root)

/-- The loop `while (p != nullptr && it == p->right) { it = p; p = p->parent; }` of
`operator++(int)` and the assignment `it = p` after it; the pointers are dereferenced in
the tree `t`.  The outer `none` means that the fuel ran out before the loop ended. -/
def ascendRight (t : PNode K V) : Nat → Addr → Option Addr → Option (Except Fault (Option Addr))
  | _, _, none => some (.ok none)
  | 0, _, some _ => none
  | fuel + 1, it, some p =>
      match deref p t with
      | null => some (.error Fault.dangling)
      | mk _ _ _ pp _ pr _ =>
          if rootAddr pr = some it then ascendRight t fuel p pp else some (.ok (some p))

/-- Source `operator++(int)` of the iterator, as the new value of `it`: unchanged for the
null iterator; the leftmost node of the right subtree if there is one; otherwise the
result of the ascent through the parents. -/
def postIncrement (t : PNode K V) (fuel : Nat) : Option Addr → Option (Except Fault (Option Addr))
  | none => some (.ok none)
  | some a =>
      match deref a t with
      | null => some (.error Fault.dangling)
      | mk _ _ _ p _ r _ =>
          match r with
          | null => ascendRight t fuel a p
          | mk ra rk rv rp rl rr rh => some (.ok (rootAddr (findMin (mk ra rk rv rp rl rr rh))))

/-- The loop `while (p != nullptr && it == p->left) { it = p; p = p->parent; }` of
`operator--(int)` and the assignment `it = p` after it. -/
def ascendLeft (t : PNode K V) : Nat → Addr → Option Addr → Option (Except Fault (Option Addr))
  | _, _, none => some (.ok none)
  | 0, _, some _ => none
  | fuel + 1, it, some p =>
      match deref p t with
      | null => some (.error Fault.dangling)
      | mk _ _ _ pp pl _ _ =>
          if rootAddr pl = some it then ascendLeft t fuel p pp else some (.ok (some p))

/-- Source `operator--(int)` of the iterator, as the new value of `it`. -/
def postDecrement (t : PNode K V) (fuel : Nat) : Option Addr → Option (Except Fault (Option Addr))
  | none => some (.ok none)
  | some a =>
      match deref a t with
      | null => some (.error Fault.dangling)
      | mk _ _ _ p l _ _ =>
          match l with
          | null => ascendLeft t fuel a p
          | mk la lk lv lp ll lr lh => some (.ok (rootAddr (findMax (mk la lk lv lp ll lr lh))))

/-- The loop `for (it = ...; it != end(); it++)` as the list of the nodes it visits, each
with the `it->key` and `it->value` read in the body.  The first number bounds the steps of
each `it++`, the second the number of rounds; the outer `none` means that one of them ran
out. -/
def traverse (t : PNode K V) (fuel : Nat) :
    Nat → Option Addr → Option (Except Fault (List (Addr × K × V)))
  | _, none => some (.ok [])
  | 0, some _ => none
  | n + 1, some a =>
      match deref a t with
      | null => some (.error Fault.dangling)
      | mk _ k v _ _ _ _ =>
          match postIncrement t fuel (some a) with
          | none => none
          | some (.error e) => some (.error e)
          | some (.ok it') =>
              match traverse t fuel n it' with
              | none => none
              | some (.error e) => some (.error e)
              | some (.ok rest) => some (.ok ((a, k, v) :: rest))

/-- The loop `for (it = ...; it != end(); it--)`, as `traverse`. -/
def traverseBack (t : PNode K V) (fuel : Nat) :
    Nat → Option Addr → Option (Except Fault (List (Addr × K × V)))
  | _, none => some (.ok [])
  | 0, some _ => none
  | n + 1, some a =>
      match deref a t with
      | null => some (.error Fault.dangling)
      | mk _ k v _ _ _ _ =>
          match postDecrement t fuel (some a) with
          | none => none
          | some (.error e) => some (.error e)
          | some (.ok it') =>
              match traverseBack t fuel n it' with
              | none => none
              | some (.error e) => some (.error e)
              | some (.ok rest) => some (.ok ((a, k, v) :: rest))

/-- Forward iteration over the whole tree: from `begin()` until the null iterator. -/
def iterate (t : PNode K V) (fuel : Nat) : Option (Except Fault (List (Addr × K × V))) :=
  traverse t fuel fuel (begin t)

/-- Backward iteration over the whole tree: from `last()` until the null iterator. -/
def iterateBack (t : PNode K V) (fuel : Nat) : Option (Except Fault (List (Addr × K × V))) :=
  traverseBack t fuel fuel (last t)

/-- The loop of `operator==`: `itTree` runs over `tree1`, `it` over `tree2`.  The loop ends
with `true` when `itTree` is null; in the body `itTree` is not null, so the first test
cannot succeed and the second one answers `false` when `it` is null; the third one answers
`false` when both the keys and the values differ; then `it++` and `itTree++`. -/
def eqLoop [DecidableEq K] [DecidableEq V] (t1 t2 : PNode K V) (fuel : Nat) :
    Nat → Option Addr → Option Addr → Option (Except Fault Bool)
  | _, none, _ => some (.ok true)
  | 0, some _, _ => none
  | _ + 1, some _, none => some (.ok false)
  | n + 1, some a1, some a2 =>
      match deref a1 t1, deref a2 t2 with
      | mk _ k1 v1 _ _ _ _, mk _ k2 v2 _ _ _ _ =>
          if k2 ≠ k1 ∧ v2 ≠ v1 then some (.ok false)
          else
            match postIncrement t2 fuel (some a2) with
            | none => none
            | some (.error e) => some (.error e)
            | some (.ok it') =>
                match postIncrement t1 fuel (some a1) with
                | none => none
                | some (.error e) => some (.error e)
                | some (.ok itTree') => eqLoop t1 t2 fuel n itTree' it'
      | _, _ => some (.error Fault.dangling)

/-- Source `operator==(AVLTree &tree1, AVLTree &tree2)` on the two roots. -/
def treeEq [DecidableEq K] [DecidableEq V] (t1 t2 : PNode K V) (fuel : Nat) :
    Option (Except Fault Bool) :=
  if rootAddr t2 = none ∧ rootAddr t1 = none then some (.ok true)
  else eqLoop t1 t2 fuel fuel (begin t1) (begin t2)

/-- What `operator==` computes, on the two in-order sequences of pairs. -/
def eqSpec [DecidableEq K] [DecidableEq V] : List (K × V) → List (K × V) → Bool
  | [], _ => true
  | _ :: _, [] => false
  | p :: ps, q :: qs => if q.1 ≠ p.1 ∧ q.2 ≠ p.2 then false else eqSpec ps qs

/-- The loop of the copy constructor: `insert(it->key, it->value)` into the new tree
`acc` for every node of `t` that `it` visits.  The `i`-th call of `insert` is given the
address `alloc i` for the node it may allocate. -/
def copyLoop [LinearOrder K] (alloc : Nat → Addr) (t : PNode K V) (fuel : Nat) :
    Nat → Nat → Option Addr → PNode K V → Option (Except Fault (PNode K V))
  | _, _, none, acc => some (.ok acc)
  | 0, _, some _, _ => none
  | n + 1, i, some a, acc =>
      match deref a t with
      | null => some (.error Fault.dangling)
      | mk _ k v _ _ _ _ =>
          match insert (alloc i) k v acc with
          | .error e => some (.error e)
          | .ok acc' =>
              match postIncrement t fuel (some a) with
              | none => none
              | some (.error e) => some (.error e)
              | some (.ok it') => copyLoop alloc t fuel n (i + 1) it' acc'

/-- Source copy constructor `AVLTree(AVLTree &tree)`: `root = NULL` and the loop. -/
def copy [LinearOrder K] (alloc : Nat → Addr) (t : PNode K V) (fuel : Nat) :
    Option (Except Fault (PNode K V)) :=
  copyLoop alloc t fuel fuel 0 (begin t) null

/-- Parent consistency below a pointer value `p`: the root of the subtree has `parent = p`
and every child has the address of the node holding it as `parent`. -/
def Linked : Option Addr → PNode K V → Prop
  | _, null => True
  | p, mk a _ _ par l r _ => par = p ∧ Linked (some a) l ∧ Linked (some a) r

instance decidableLinked : (p : Option Addr) → (t : PNode K V) → Decidable (Linked p t)
  | _, null => isTrue trivial
  | p, mk a _ _ par l r _ =>
      have := decidableLinked (some a) l
      have := decidableLinked (some a) r
      inferInstanceAs (Decidable (par = p ∧ Linked (some a) l ∧ Linked (some a) r))

/-- A well-formed tree: the parent of the root is null, every child points back to the node
holding it, and no two nodes share an address. -/
def WF (t : PNode K V) : Prop :=
  Linked none t ∧ (addrs t).Nodup

/-- The subtrees of `t`: `t` itself and the children of its non-null subtrees. -/
inductive Sub (t : PNode K V) : PNode K V → Prop
  | root : Sub t t
  | left {a : Addr} {k : K} {v : V} {p : Option Addr} {l r : PNode K V} {h : Int} :
      Sub t (mk a k v p l r h) → Sub t l
  | right {a : Addr} {k : K} {v : V} {p : Option Addr} {l r : PNode K V} {h : Int} :
      Sub t (mk a k v p l r h) → Sub t r

/-- The trees obtained from the empty tree by a sequence of calls of `insert`, each of
which is given an address that no node of the tree has. -/
inductive Built [LinearOrder K] : PNode K V → Prop
  | empty : Built null
  | step {t t' : PNode K V} (fresh : Addr) (key : K) (value : V) :
      Built t → fresh ∉ addrs t → insert fresh key value t = .ok t' → Built t'

/-- The tree built by `insert` of the keys 2, 1, 3, 4 in this order, the nodes allocated at
the addresses 100, 101, 102, 103: root 2, left leaf 1, right child 3 with the right leaf 4. -/
def fourNodes : PNode Int String :=
  mk 100 2 "b" none (mk 101 1 "a" (some 100) null null 0)
    (mk 102 3 "c" (some 100) null (mk 103 4 "d" (some 102) null null 0) 1) 2

/-- The tree `fourNodes` after `remove(3)`: the node of key 4 has taken the place of the
node of key 3 and still has the address of that node as `parent`. -/
def fourNodesWithout3 : PNode Int String :=
  mk 100 2 "b" none (mk 101 1 "a" (some 100) null null 0) (mk 103 4 "d" (some 102) null null 0) 1

/-- The tree built by `insert(1, "a")`. -/
def oneA : PNode Int String :=
  mk 100 1 "a" none null null 0

/-- The tree built by `insert(1, "b")`. -/
def oneB : PNode Int String :=
  mk 200 1 "b" none null null 0

/-- An allocator that never returns an address twice. -/
def bump (i : Nat) : Addr :=
  500 + i

end PNode

namespace Node

variable {K V : Type}

/-- A chain to the right of the keys 1, 2, 3, 4 with correct height fields. -/
def rightChain : Node Int String :=
  mk 1 "a" null (mk 2 "b" null (mk 3 "c" null (mk 4 "d" null null 0) 1) 2) 3

/-- Source `findValue`: the descent of `findKey` with the comparisons made on the values. -/
def findValue [LinearOrder V] (value : V) : Node K V → Node K V
  | null => null
  | mk k v l r h =>
      if v = value then mk k v l r h
      else if value > v then findValue value r
      else findValue value l

/-- The tree with left and right swapped at every node. -/
def mirror : Node K V → Node K V
  | null => null
  | mk k v l r h => mk k v (mirror r) (mirror l) h

/-- The values stored in the tree, in in-order. -/
def values (t : Node K V) : List V :=
  (inorder t).map Prod.snd

end Node

namespace AVLTree

variable {K V : Type}

/-- Source `searchValue`. -/
def searchValue [LinearOrder V] (t : AVLTree K V) (value : V) : Node K V :=
  Node.findValue value t.root

/-- Source `operator()`: throws `invalid_argument` when `searchValue(value)` is null, and
returns `searchValue(value)->key` otherwise. -/
def call [LinearOrder V] (t : AVLTree K V) (value : V) : Except Fault K :=
  match t.searchValue value with
  | Node.null => .error Fault.invalidArgument
  | Node.mk k _ _ _ _ => .ok k

/-- The tree built by inserting (1, 10), (2, 20), (3, 30): the values ascend with the keys. -/
def ascendingValues : AVLTree Int Int :=
  ⟨Node.mk 2 20 (Node.mk 1 10 Node.null Node.null 0) (Node.mk 3 30 Node.null Node.null 0) 1⟩

end AVLTree

namespace Node

variable {K V : Type}

/-- Number of nodes of the tree. -/
def size : Node K V → Nat
  | null => 0
  | mk _ _ l r _ => size l + size r + 1

/-- The node `s` belongs to the tree `t`: it is `t` itself or it is reached from the root
of `t` through `left` and `right` pointers. -/
inductive Inside : Node K V → Node K V → Prop
  | root (t : Node K V) : Inside t t
  | left {s : Node K V} (k : K) (v : V) (l r : Node K V) (h : Int) :
      Inside s l → Inside s (mk k v l r h)
  | right {s : Node K V} (k : K) (v : V) (l r : Node K V) (h : Int) :
      Inside s r → Inside s (mk k v l r h)

end Node


/-! ## Heights -/

namespace Node

variable {K V : Type}

theorem height_ge_of_heightOK : ∀ t : Node K V, HeightOK t → -1 ≤ height t
  | null, _ => by simp [height]
  | mk _ _ l r h, hok => by
      have hl := height_ge_of_heightOK l hok.2.1
      have hr := height_ge_of_heightOK r hok.2.2
      have h0 := hok.1
      simp only [height]
      omega

theorem height_eq_depth : ∀ t : Node K V, HeightOK t → height t = depth t
  | null, _ => rfl
  | mk _ _ l r h, hok => by
      have hl := height_eq_depth l hok.2.1
      have hr := height_eq_depth r hok.2.2
      have h0 := hok.1
      simp only [height, depth]
      omega

theorem depthBalanced_of_balanced : ∀ t : Node K V, HeightOK t → Balanced t → DepthBalanced t
  | null, _, _ => trivial
  | mk _ _ l r _, hok, hb => by
      have hl := height_eq_depth l hok.2.1
      have hr := height_eq_depth r hok.2.2
      refine ⟨?_, depthBalanced_of_balanced l hok.2.1 hb.2.1,
        depthBalanced_of_balanced r hok.2.2 hb.2.2⟩
      have := hb.1
      omega

end Node

/-! ## Insertion keeps the tree balanced -/
namespace Node
variable {K V : Type}

theorem height_null : height (null : Node K V) = -1 := rfl

theorem height_mk (k : K) (v : V) (l r : Node K V) (h : Int) : height (mk k v l r h) = h := rfl

theorem insertFixLeft_spec [LinearOrder K] (key k : K) (v : V) (l' r : Node K V) (h a : Int)
    (hlt : key < k)
    (okl : HeightOK l') (bl : Balanced l') (okr : HeightOK r) (br : Balanced r)
    (ha : (a - height r).natAbs ≤ 1) (h1 : a ≤ height l') (h2 : height l' ≤ a + 1)
    (hlean : 0 ≤ a → height l' = a + 1 → Leans key l') :
    ∃ n t', insertFixLeft key (mk k v l' r h) = .ok n ∧ setHeight n = .ok t' ∧
      HeightOK t' ∧ Balanced t' ∧
      1 + max a (height r) ≤ height t' ∧ height t' ≤ 1 + max a (height r) + 1 ∧
      (height t' = 1 + max a (height r) + 1 → Leans key t') := by
  have hr := height_ge_of_heightOK r okr
  by_cases hd : height l' - height r = 2
  · cases l' with
    | null => simp only [height_null] at hd; omega
    | mk lk lv ll lr lh =>
      have hL := hlean (by simp only [height_mk] at hd h1 h2; omega) (by simp only [height_mk] at hd h1 h2 ⊢; omega)
      simp only [insertFixLeft, if_pos hd]
      simp only [HeightOK, Balanced, height_null, height_mk, Leans] at *
      have hll := height_ge_of_heightOK ll okl.2.1
      have hlr := height_ge_of_heightOK lr okl.2.2
      rcases hL with ⟨hk, hh⟩ | ⟨hk, hh⟩
      · rw [if_pos hk]
        refine ⟨_, _, rfl, rfl, ?_⟩
        simp only [HeightOK, Balanced, height_null, height_mk, Leans]
        refine ⟨⟨?_, okl.2.1, ?_, okl.2.2, okr⟩, ⟨?_, bl.2.1, ?_, bl.2.2, br⟩, ?_, ?_, ?_⟩ <;> omega
      · rw [if_neg (not_lt_of_gt hk)]
        cases lr with
        | null => simp only [height_null] at *; omega
        | mk mk' mv ma mb mh =>
          refine ⟨_, _, rfl, rfl, ?_⟩
          simp only [HeightOK, Balanced, height_null, height_mk, Leans] at *
          refine ⟨⟨?_, ⟨?_, okl.2.1, okl.2.2.2.1⟩, ?_, okl.2.2.2.2, okr⟩,
            ⟨?_, ⟨?_, bl.2.1, bl.2.2.2.1⟩, ?_, bl.2.2.2.2, br⟩, ?_, ?_, ?_⟩ <;> omega
  · simp only [insertFixLeft, if_neg hd]
    refine ⟨_, _, rfl, rfl, ?_⟩
    simp only [HeightOK, Balanced, height_null, height_mk, Leans]
    refine ⟨⟨?_, okl, okr⟩, ⟨?_, bl, br⟩, ?_, ?_, ?_⟩
    · omega
    · omega
    · omega
    · omega
    · intro hg; left; exact ⟨hlt, by omega⟩

theorem insertFixRight_spec [LinearOrder K] (key k : K) (v : V) (l r' : Node K V) (h a : Int)
    (hgt : k < key)
    (okl : HeightOK l) (bl : Balanced l) (okr : HeightOK r') (br : Balanced r')
    (ha : (height l - a).natAbs ≤ 1) (h1 : a ≤ height r') (h2 : height r' ≤ a + 1)
    (hlean : 0 ≤ a → height r' = a + 1 → Leans key r') :
    ∃ n t', insertFixRight key (mk k v l r' h) = .ok n ∧ setHeight n = .ok t' ∧
      HeightOK t' ∧ Balanced t' ∧
      1 + max (height l) a ≤ height t' ∧ height t' ≤ 1 + max (height l) a + 1 ∧
      (height t' = 1 + max (height l) a + 1 → Leans key t') := by
  have hl := height_ge_of_heightOK l okl
  by_cases hd : height r' - height l = 2
  · cases r' with
    | null => simp only [height_null] at hd; omega
    | mk rk rv rl rr rh =>
      have hL := hlean (by simp only [height_mk] at hd h1 h2; omega)
        (by simp only [height_mk] at hd h1 h2 ⊢; omega)
      simp only [insertFixRight, if_pos hd]
      simp only [HeightOK, Balanced, height_null, height_mk, Leans] at *
      have hrl := height_ge_of_heightOK rl okr.2.1
      have hrr := height_ge_of_heightOK rr okr.2.2
      rcases hL with ⟨hk, hh⟩ | ⟨hk, hh⟩
      · rw [if_neg (not_lt_of_gt hk)]
        cases rl with
        | null => simp only [height_null] at *; omega
        | mk ck cv ca cb ch =>
          refine ⟨_, _, rfl, rfl, ?_⟩
          simp only [HeightOK, Balanced, height_null, height_mk, Leans] at *
          refine ⟨⟨?_, ⟨?_, okl, okr.2.1.2.1⟩, ?_, okr.2.1.2.2, okr.2.2⟩,
            ⟨?_, ⟨?_, bl, br.2.1.2.1⟩, ?_, br.2.1.2.2, br.2.2⟩, ?_, ?_, ?_⟩ <;> omega
      · rw [if_pos hk]
        refine ⟨_, _, rfl, rfl, ?_⟩
        simp only [HeightOK, Balanced, height_null, height_mk, Leans]
        refine ⟨⟨?_, ⟨?_, okl, okr.2.1⟩, okr.2.2⟩, ⟨?_, ⟨?_, bl, br.2.1⟩, br.2.2⟩, ?_, ?_, ?_⟩ <;>
          omega
  · simp only [insertFixRight, if_neg hd]
    refine ⟨_, _, rfl, rfl, ?_⟩
    simp only [HeightOK, Balanced, height_null, height_mk, Leans]
    refine ⟨⟨?_, okl, okr⟩, ⟨?_, bl, br⟩, ?_, ?_, ?_⟩
    · omega
    · omega
    · omega
    · omega
    · intro hg; right; exact ⟨hgt, by omega⟩

/-- Insertion into a height-correct balanced tree returns a height-correct balanced tree
whose height is the old one or one more; when a non-null tree grows, the result leans to
the side of `key`. -/
theorem insert_core [LinearOrder K] (key : K) (value : V) :
    ∀ t : Node K V, HeightOK t → Balanced t →
      ∃ t', insert key value t = .ok t' ∧ HeightOK t' ∧ Balanced t' ∧
        height t ≤ height t' ∧ height t' ≤ height t + 1 ∧
        (0 ≤ height t → height t' = height t + 1 → Leans key t')
  | null, _, _ => by
      refine ⟨mk key value null null 0, rfl, ?_⟩
      simp [HeightOK, Balanced, height_null, height_mk]
  | mk k v l r h, hok, hb => by
      have hl := height_ge_of_heightOK l hok.2.1
      have hr := height_ge_of_heightOK r hok.2.2
      have hh := hok.1
      have hbal := hb.1
      by_cases hlt : key < k
      · obtain ⟨l', e, okl, bl, h1, h2, hlean⟩ := insert_core key value l hok.2.1 hb.2.1
        obtain ⟨n, t', e1, e2, p⟩ := insertFixLeft_spec key k v l' r h (height l) hlt okl bl
          hok.2.2 hb.2.2 hbal h1 h2 hlean
        refine ⟨t', ?_, ?_⟩
        · simp only [insert, if_pos hlt, e, e1, e2]
        · simp only [height_mk]
          obtain ⟨p1, p2, p3, p4, p5⟩ := p
          refine ⟨p1, p2, ?_, ?_, ?_⟩
          · omega
          · omega
          · intro _ hg; exact p5 (by omega)
      · by_cases hgt : k < key
        · obtain ⟨r', e, okr, br, h1, h2, hlean⟩ := insert_core key value r hok.2.2 hb.2.2
          obtain ⟨n, t', e1, e2, p⟩ := insertFixRight_spec key k v l r' h (height r) hgt
            hok.2.1 hb.2.1 okr br hbal h1 h2 hlean
          refine ⟨t', ?_, ?_⟩
          · simp only [insert, if_neg hlt, gt_iff_lt, if_pos hgt, e, e1, e2]
          · simp only [height_mk]
            obtain ⟨p1, p2, p3, p4, p5⟩ := p
            refine ⟨p1, p2, ?_, ?_, ?_⟩
            · omega
            · omega
            · intro _ hg; exact p5 (by omega)
        · refine ⟨mk k v l r h, ?_, hok, hb, le_refl _, by omega, ?_⟩
          · simp only [insert, if_neg hlt, gt_iff_lt, if_neg hgt, setHeight]
            rw [hh, add_comm]
          · intro _ hg; omega

end Node

/-! ## Rotations keep the in-order sequence -/
namespace Node
variable {K V : Type}

theorem inorder_singleRightRotate {t t' : Node K V} (e : singleRightRotate t = .ok t') :
    inorder t' = inorder t := by
  cases t with
  | null => simp [singleRightRotate] at e
  | mk k v l r h =>
    cases l with
    | null => simp [singleRightRotate] at e
    | mk lk lv ll lr lh =>
      simp only [singleRightRotate, Except.ok.injEq] at e
      subst e
      simp [inorder]

theorem inorder_singleLeftRotate {t t' : Node K V} (e : singleLeftRotate t = .ok t') :
    inorder t' = inorder t := by
  cases t with
  | null => simp [singleLeftRotate] at e
  | mk k v l r h =>
    cases r with
    | null => simp [singleLeftRotate] at e
    | mk rk rv rl rr rh =>
      simp only [singleLeftRotate, Except.ok.injEq] at e
      subst e
      simp [inorder]

theorem inorder_doubleRightRotate {t t' : Node K V} (e : doubleRightRotate t = .ok t') :
    inorder t' = inorder t := by
  cases t with
  | null => simp [doubleRightRotate] at e
  | mk k v l r h =>
    simp only [doubleRightRotate] at e
    cases e1 : singleLeftRotate l with
    | error x => simp [e1] at e
    | ok l' =>
      simp only [e1] at e
      rw [inorder_singleRightRotate e]
      simp [inorder, inorder_singleLeftRotate e1]

theorem inorder_doubleLeftRotate {t t' : Node K V} (e : doubleLeftRotate t = .ok t') :
    inorder t' = inorder t := by
  cases t with
  | null => simp [doubleLeftRotate] at e
  | mk k v l r h =>
    simp only [doubleLeftRotate] at e
    cases e1 : singleRightRotate r with
    | error x => simp [e1] at e
    | ok r' =>
      simp only [e1] at e
      rw [inorder_singleLeftRotate e]
      simp [inorder, inorder_singleRightRotate e1]

theorem inorder_setHeight {t t' : Node K V} (e : setHeight t = .ok t') :
    inorder t' = inorder t := by
  cases t with
  | null => simp [setHeight] at e
  | mk k v l r h =>
    simp only [setHeight, Except.ok.injEq] at e
    subst e
    simp [inorder]

theorem inorder_insertFixLeft [LinearOrder K] {key : K} {t t' : Node K V}
    (e : insertFixLeft key t = .ok t') : inorder t' = inorder t := by
  cases t with
  | null => simp [insertFixLeft] at e
  | mk k v l r h =>
    simp only [insertFixLeft] at e
    split at e
    · split at e
      · simp at e
      · split at e
        · exact inorder_singleRightRotate e
        · exact inorder_doubleRightRotate e
    · simp only [Except.ok.injEq] at e
      subst e
      rfl

theorem inorder_insertFixRight [LinearOrder K] {key : K} {t t' : Node K V}
    (e : insertFixRight key t = .ok t') : inorder t' = inorder t := by
  cases t with
  | null => simp [insertFixRight] at e
  | mk k v l r h =>
    simp only [insertFixRight] at e
    split at e
    · split at e
      · simp at e
      · split at e
        · exact inorder_singleLeftRotate e
        · exact inorder_doubleLeftRotate e
    · simp only [Except.ok.injEq] at e
      subst e
      rfl

theorem inorder_removeFix {t t' : Node K V} (e : removeFix t = .ok t') :
    inorder t' = inorder t := by
  cases t with
  | null =>
    simp only [removeFix, Except.ok.injEq] at e
    subst e
    rfl
  | mk k v l r h =>
    have hi : inorder (mk k v l r (max (height l) (height r) + 1)) = inorder (mk k v l r h) := rfl
    simp only [removeFix] at e
    split at e
    · split at e
      · simp at e
      · split at e
        · rw [inorder_singleLeftRotate e, hi]
        · rw [inorder_doubleLeftRotate e, hi]
    · split at e
      · split at e
        · simp at e
        · split at e
          · rw [inorder_singleRightRotate e, hi]
          · rw [inorder_doubleRightRotate e, hi]
      · simp only [Except.ok.injEq] at e
        subst e
        rfl

end Node

/-! ## Insertion adds the pair at its sorted position -/
namespace Node
variable {K V : Type}

theorem mem_keys [LinearOrder K] {key : K} {t : Node K V} :
    key ∈ keys t ↔ ∃ v, (key, v) ∈ inorder t := by
  simp [keys]

theorem BST_iff_ascending [LinearOrder K] : ∀ t : Node K V, BST t ↔ Ascending (inorder t)
  | null => by simp [BST, Ascending, inorder]
  | mk k v l r h => by
      have hl := BST_iff_ascending l
      have hr := BST_iff_ascending r
      simp only [BST, inorder, Ascending, List.pairwise_append, List.pairwise_cons,
        List.mem_cons] at *
      rw [hl, hr]
      constructor
      · rintro ⟨h1, h2, h3, h4⟩
        refine ⟨h3, ⟨h2, h4⟩, ?_⟩
        rintro a ha b (rfl | hb)
        · exact h1 a ha
        · exact lt_trans (h1 a ha) (h2 b hb)
      · rintro ⟨h1, ⟨h2, h3⟩, h4⟩
        exact ⟨fun p hp => h4 p hp (k, v) (Or.inl rfl), h2, h1, h3⟩

theorem insertSorted_append_left [LinearOrder K] (key : K) (value : V) (a : K × V)
    (hlt : key < a.1) (R : List (K × V)) :
    ∀ L : List (K × V), insertSorted key value (L ++ a :: R) = insertSorted key value L ++ a :: R
  | [] => by simp [insertSorted, hlt]
  | p :: L => by
      by_cases hp : key < p.1
      · simp [insertSorted, hp]
      · simp [insertSorted, hp, insertSorted_append_left key value a hlt R L]

theorem insertSorted_append_right [LinearOrder K] (key : K) (value : V) (a : K × V)
    (hgt : a.1 < key) (R : List (K × V)) :
    ∀ L : List (K × V), (∀ p ∈ L, p.1 < key) →
      insertSorted key value (L ++ a :: R) = L ++ a :: insertSorted key value R
  | [], _ => by simp [insertSorted, not_lt_of_gt hgt]
  | p :: L, hL => by
      have hp : ¬ key < p.1 := not_lt_of_gt (hL p (List.mem_cons_self _ _))
      have ih := insertSorted_append_right key value a hgt R L
        (fun q hq => hL q (List.mem_cons_of_mem _ hq))
      simp [insertSorted, hp, ih]

theorem mem_insertSorted [LinearOrder K] (key : K) (value : V) (q : K × V) :
    ∀ L : List (K × V), q ∈ insertSorted key value L ↔ q = (key, value) ∨ q ∈ L
  | [] => by simp [insertSorted]
  | p :: L => by
      by_cases hp : key < p.1
      · simp [insertSorted, hp]
      · simp only [insertSorted, hp, if_false, List.mem_cons, mem_insertSorted key value q L]
        tauto

theorem ascending_insertSorted [LinearOrder K] (key : K) (value : V) :
    ∀ L : List (K × V), Ascending L → (∀ p ∈ L, p.1 ≠ key) →
      Ascending (insertSorted key value L)
  | [], _, _ => by simp [insertSorted, Ascending]
  | p :: L, hA, hne => by
      simp only [Ascending, List.pairwise_cons] at hA
      by_cases hp : key < p.1
      · simp only [insertSorted, hp, if_true, Ascending, List.pairwise_cons, List.mem_cons]
        refine ⟨?_, hA⟩
        rintro q (rfl | hq)
        · exact hp
        · exact lt_trans hp (hA.1 q hq)
      · have hpk : p.1 < key :=
          lt_of_le_of_ne (not_lt.mp hp) (hne p (List.mem_cons_self _ _))
        have ih := ascending_insertSorted key value L hA.2
          (fun q hq => hne q (List.mem_cons_of_mem _ hq))
        simp only [insertSorted, hp, if_false, Ascending, List.pairwise_cons]
        refine ⟨?_, ih⟩
        intro q hq
        rcases (mem_insertSorted key value q L).mp hq with rfl | hq
        · exact hpk
        · exact hA.1 q hq

theorem length_insertSorted [LinearOrder K] (key : K) (value : V) :
    ∀ L : List (K × V), (insertSorted key value L).length = L.length + 1
  | [] => rfl
  | p :: L => by
      by_cases hp : key < p.1
      · simp [insertSorted, hp]
      · simp [insertSorted, hp, length_insertSorted key value L]

/-- Inserting a key that is not stored adds the pair at its sorted position. -/
theorem inorder_insert [LinearOrder K] (key : K) (value : V) :
    ∀ (t t' : Node K V), BST t → key ∉ keys t → insert key value t = .ok t' →
      inorder t' = insertSorted key value (inorder t)
  | null, t', _, _, e => by
      simp only [insert, setHeight, Except.ok.injEq] at e
      subst e
      rfl
  | mk k v l r h, t', hbst, hk, e => by
      have hkl : key ∉ keys l := fun hm => hk (by
        simp only [keys, inorder, List.map_append, List.mem_append] at hm ⊢
        exact Or.inl hm)
      have hkr : key ∉ keys r := fun hm => hk (by
        simp only [keys, inorder, List.map_append, List.mem_append, List.map_cons,
          List.mem_cons] at hm ⊢
        exact Or.inr (Or.inr hm))
      have hne : key ≠ k := fun hm => hk (by
        simp [keys, inorder, hm])
      simp only [insert] at e
      split at e
      · rename_i hlt
        split at e
        · simp at e
        · rename_i l' el
          split at e
          · simp at e
          · rename_i n en
            rw [inorder_setHeight e, inorder_insertFixLeft en]
            simp only [inorder]
            rw [inorder_insert key value l l' hbst.2.2.1 hkl el]
            exact (insertSorted_append_left key value (k, v) hlt _ _).symm
      · rename_i hlt
        split at e
        · rename_i hgt
          split at e
          · simp at e
          · rename_i r' er
            split at e
            · simp at e
            · rename_i n en
              rw [inorder_setHeight e, inorder_insertFixRight en]
              simp only [inorder]
              rw [inorder_insert key value r r' hbst.2.2.2 hkr er]
              refine (insertSorted_append_right key value (k, v) hgt _ _ ?_).symm
              intro p hp
              exact lt_trans (hbst.1 p hp) hgt
        · rename_i hgt
          exact absurd (le_antisymm (not_lt.mp hgt) (not_lt.mp hlt)) hne

end Node

/-! ## Lookup, duplicate keys and repeated insertion -/
namespace Node
variable {K V : Type}

theorem keys_mk (k : K) (v : V) (l r : Node K V) (h : Int) :
    keys (mk k v l r h) = keys l ++ k :: keys r := by
  simp [keys, inorder]

theorem BST_keys_left [LinearOrder K] {k : K} {v : V} {l r : Node K V} {h : Int}
    (hbst : BST (mk k v l r h)) {x : K} (hx : x ∈ keys l) : x < k := by
  obtain ⟨w, hw⟩ := mem_keys.mp hx
  exact hbst.1 (x, w) hw

theorem BST_keys_right [LinearOrder K] {k : K} {v : V} {l r : Node K V} {h : Int}
    (hbst : BST (mk k v l r h)) {x : K} (hx : x ∈ keys r) : k < x := by
  obtain ⟨w, hw⟩ := mem_keys.mp hx
  exact hbst.2.1 (x, w) hw

/-- A node returned by `findKey` carries the key looked for and belongs to the tree. -/
theorem findKey_sound [LinearOrder K] (key : K) :
    ∀ (t : Node K V) (k : K) (v : V) (l r : Node K V) (h : Int),
      findKey key t = mk k v l r h → k = key ∧ (k, v) ∈ inorder t
  | null, k, v, l, r, h, e => by simp [findKey] at e
  | mk tk tv tl tr th, k, v, l, r, h, e => by
      simp only [findKey] at e
      split at e
      · rename_i heq
        simp only [mk.injEq] at e
        obtain ⟨rfl, rfl, -⟩ := e
        exact ⟨heq, by simp [inorder]⟩
      · split at e
        · have := findKey_sound key tr k v l r h e
          exact ⟨this.1, by simp [inorder, this.2]⟩
        · have := findKey_sound key tl k v l r h e
          exact ⟨this.1, by simp [inorder, this.2]⟩

/-- In a BST-ordered tree `findKey` reaches the node of every stored pair. -/
theorem findKey_of_mem [LinearOrder K] (key : K) (value : V) :
    ∀ t : Node K V, BST t → (key, value) ∈ inorder t →
      ∃ l r h, findKey key t = mk key value l r h
  | null, _, hm => by simp [inorder] at hm
  | mk k v l r h, hbst, hm => by
      simp only [inorder, List.mem_append, List.mem_cons, Prod.mk.injEq] at hm
      rcases hm with hm | ⟨rfl, rfl⟩ | hm
      · have hlt : key < k := hbst.1 _ hm
        obtain ⟨a, b, c, e⟩ := findKey_of_mem key value l hbst.2.2.1 hm
        refine ⟨a, b, c, ?_⟩
        simp only [findKey, if_neg (ne_of_gt hlt), gt_iff_lt, if_neg (not_lt_of_gt hlt), e]
      · exact ⟨l, r, h, by simp [findKey]⟩
      · have hgt : k < key := hbst.2.1 _ hm
        obtain ⟨a, b, c, e⟩ := findKey_of_mem key value r hbst.2.2.2 hm
        refine ⟨a, b, c, ?_⟩
        simp only [findKey, if_neg (ne_of_lt hgt), gt_iff_lt, if_pos hgt, e]

theorem findKey_eq_null_iff [LinearOrder K] (key : K) (t : Node K V) (hbst : BST t) :
    findKey key t = null ↔ key ∉ keys t := by
  constructor
  · intro e hm
    obtain ⟨v, hv⟩ := mem_keys.mp hm
    obtain ⟨l, r, h, e'⟩ := findKey_of_mem key v t hbst hv
    rw [e] at e'
    cases e'
  · intro hk
    cases e : findKey key t with
    | null => rfl
    | mk k v l r h =>
      obtain ⟨rfl, hm⟩ := findKey_sound key t k v l r h e
      exact absurd (mem_keys.mpr ⟨v, hm⟩) hk

/-- Inserting a key that is already stored returns the tree as it was. -/
theorem insert_stored [LinearOrder K] (key : K) (value : V) :
    ∀ t : Node K V, BST t → HeightOK t → Balanced t → key ∈ keys t →
      insert key value t = .ok t
  | null, _, _, _, hm => by simp [keys, inorder] at hm
  | mk k v l r h, hbst, hok, hb, hm => by
      have hh : max (height l) (height r) + 1 = h := by rw [hok.1, add_comm]
      have hbal := hb.1
      rw [keys_mk, List.mem_append, List.mem_cons] at hm
      by_cases hlt : key < k
      · have hml : key ∈ keys l := by
          rcases hm with hm | rfl | hm
          · exact hm
          · exact absurd hlt (lt_irrefl _)
          · exact absurd (lt_trans hlt (BST_keys_right hbst hm)) (lt_irrefl _)
        have ih := insert_stored key value l hbst.2.2.1 hok.2.1 hb.2.1 hml
        have hd : ¬ height l - height r = 2 := by omega
        simp only [insert, if_pos hlt, ih, insertFixLeft, if_neg hd, setHeight, hh]
      · by_cases hgt : k < key
        · have hmr : key ∈ keys r := by
            rcases hm with hm | rfl | hm
            · exact absurd (lt_trans hgt (BST_keys_left hbst hm)) (lt_irrefl _)
            · exact absurd hgt (lt_irrefl _)
            · exact hm
          have ih := insert_stored key value r hbst.2.2.2 hok.2.2 hb.2.2 hmr
          have hd : ¬ height r - height l = 2 := by omega
          simp only [insert, if_neg hlt, gt_iff_lt, if_pos hgt, ih, insertFixRight, if_neg hd,
            setHeight, hh]
        · simp only [insert, if_neg hlt, gt_iff_lt, if_neg hgt, setHeight, hh]

end Node

namespace AVLTree
variable {K V : Type}
open Node

/-- Inserting pairs with distinct keys, none of them stored yet, into a tree that is
BST-ordered, balanced and height-correct succeeds, keeps the three invariants and stores
exactly the old pairs and the new ones. -/
theorem insertAll_core [LinearOrder K] :
    ∀ (ps : List (K × V)) (t : AVLTree K V), BST t.root → HeightOK t.root → Balanced t.root →
      (ps.map Prod.fst).Nodup → (∀ p ∈ ps, p.1 ∉ keys t.root) →
      ∃ t', insertAll t ps = .ok t' ∧ BST t'.root ∧ HeightOK t'.root ∧ Balanced t'.root ∧
        ∀ q, q ∈ inorder t'.root ↔ q ∈ inorder t.root ∨ q ∈ ps
  | [], t, hbst, hok, hb, _, _ => ⟨t, rfl, hbst, hok, hb, by simp⟩
  | (k, v) :: ps, t, hbst, hok, hb, hnd, hfresh => by
      obtain ⟨r', e, okr, br, -⟩ := insert_core k v t.root hok hb
      have hk : k ∉ keys t.root := hfresh (k, v) (List.mem_cons_self _ _)
      have hin := inorder_insert k v t.root r' hbst hk e
      have hbst' : BST r' := by
        rw [BST_iff_ascending, hin]
        refine ascending_insertSorted k v _ ((BST_iff_ascending _).mp hbst) ?_
        intro p hp heq
        exact hk (mem_keys.mpr ⟨p.2, by rw [← heq]; exact hp⟩)
      simp only [List.map_cons, List.nodup_cons] at hnd
      have hfresh' : ∀ p ∈ ps, p.1 ∉ keys (AVLTree.mk r').root := by
        intro p hp hm
        obtain ⟨w, hw⟩ := mem_keys.mp hm
        rw [hin, mem_insertSorted] at hw
        rcases hw with hw | hw
        · simp only [Prod.mk.injEq] at hw
          exact hnd.1 (by rw [← hw.1]; exact List.mem_map_of_mem Prod.fst hp)
        · exact hfresh p (List.mem_cons_of_mem _ hp) (mem_keys.mpr ⟨w, hw⟩)
      obtain ⟨t', e', h1, h2, h3, h4⟩ := insertAll_core ps ⟨r'⟩ hbst' okr br hnd.2 hfresh'
      refine ⟨t', ?_, h1, h2, h3, ?_⟩
      · simp only [insertAll, AVLTree.insert, e, e']
      · intro q
        rw [h4 q, hin, mem_insertSorted, List.mem_cons]
        tauto

end AVLTree

/-! ## Removal deletes the pair of the key -/
namespace Node
variable {K V : Type}

theorem eraseKey_eq_self [LinearOrder K] (key : K) (L : List (K × V))
    (h : ∀ p ∈ L, p.1 ≠ key) : eraseKey key L = L := by
  simp only [eraseKey, List.filter_eq_self]
  intro p hp
  simpa using h p hp

theorem eraseKey_append [LinearOrder K] (key : K) (L R : List (K × V)) :
    eraseKey key (L ++ R) = eraseKey key L ++ eraseKey key R := by
  simp [eraseKey]

theorem eraseKey_cons_self [LinearOrder K] (key : K) (v : V) (L : List (K × V)) :
    eraseKey key ((key, v) :: L) = eraseKey key L := by
  simp [eraseKey]

theorem eraseKey_cons_ne [LinearOrder K] (key : K) (p : K × V) (L : List (K × V))
    (h : p.1 ≠ key) : eraseKey key (p :: L) = p :: eraseKey key L := by
  simp [eraseKey, h]

/-- The node returned by `findMin` on a non-null tree holds the first pair in in-order. -/
theorem findMin_spec : ∀ t : Node K V, t ≠ null →
    ∃ sk sv a b c rest, findMin t = mk sk sv a b c ∧ inorder t = (sk, sv) :: rest
  | null, h => absurd rfl h
  | mk k v null r h, _ => ⟨k, v, null, r, h, inorder r, rfl, rfl⟩
  | mk k v (mk lk lv ll lr lh) r h, _ => by
      obtain ⟨sk, sv, a, b, c, rest, e, hi⟩ := findMin_spec (mk lk lv ll lr lh) (by simp)
      refine ⟨sk, sv, a, b, c, rest ++ (k, v) :: inorder r, ?_, ?_⟩
      · simp only [findMin, e]
      · rw [inorder, hi]
        rfl

theorem remove_of_lt [LinearOrder K] (key : K) (value : V) (k : K) (v : V) (l r : Node K V)
    (h : Int) (hlt : key < k) :
    remove key value (mk k v l r h) =
      match remove key value l with
      | .error e => .error e
      | .ok l' => removeFix (mk k v l' r h) := by
  cases l <;> cases r <;> simp only [remove, if_pos hlt] <;> try rfl

theorem remove_of_gt [LinearOrder K] (key : K) (value : V) (k : K) (v : V) (l r : Node K V)
    (h : Int) (hgt : k < key) :
    remove key value (mk k v l r h) =
      match remove key value r with
      | .error e => .error e
      | .ok r' => removeFix (mk k v l r' h) := by
  cases l <;> cases r <;>
    simp only [remove, if_neg (not_lt_of_gt hgt), gt_iff_lt, if_pos hgt] <;> try rfl

theorem remove_self_left_null [LinearOrder K] (key : K) (value : V) (v : V) (r : Node K V)
    (h : Int) : remove key value (mk key v null r h) = removeFix r := by
  simp only [remove, lt_irrefl, gt_iff_lt, if_false]

theorem remove_self_right_null [LinearOrder K] (key : K) (value : V) (v : V) (l : Node K V)
    (h : Int) (hl : l ≠ null) : remove key value (mk key v l null h) = removeFix l := by
  cases l with
  | null => exact absurd rfl hl
  | mk lk lv ll lr lh => simp only [remove, lt_irrefl, gt_iff_lt, if_false]

theorem remove_self_both [LinearOrder K] (key : K) (value : V) (v : V) (l r : Node K V)
    (h : Int) (hl : l ≠ null) (hr : r ≠ null) :
    remove key value (mk key v l r h) =
      match findMin r with
      | null => .error Fault.nullChild
      | mk sk sv _ _ _ =>
          match remove sk sv r with
          | .error e => .error e
          | .ok r' => removeFix (mk sk sv l r' h) := by
  cases l with
  | null => exact absurd rfl hl
  | mk lk lv ll lr lh =>
    cases r with
    | null => exact absurd rfl hr
    | mk rk rv rl rr rh =>
      simp only [remove, lt_irrefl, gt_iff_lt, if_false] <;> try rfl

/-- Whenever the recursive `remove` returns a tree, its in-order sequence is that of the
argument without the pair of `key`. -/
theorem inorder_remove [LinearOrder K] :
    ∀ (t : Node K V) (key : K) (value : V) (t' : Node K V), BST t →
      remove key value t = .ok t' → inorder t' = eraseKey key (inorder t)
  | null, key, value, t', _, e => by
      simp only [remove, Except.ok.injEq] at e
      subst e
      rfl
  | mk k v l r h, key, value, t', hbst, e => by
      have hL : ∀ p ∈ inorder l, p.1 < k := hbst.1
      have hR : ∀ p ∈ inorder r, k < p.1 := hbst.2.1
      simp only [inorder, eraseKey_append]
      by_cases hlt : key < k
      · rw [remove_of_lt key value k v l r h hlt] at e
        split at e
        · simp at e
        · rename_i l' el
          rw [inorder_removeFix e, inorder, inorder_remove l key value l' hbst.2.2.1 el,
            eraseKey_cons_ne key (k, v) _ (ne_of_gt hlt),
            eraseKey_eq_self key (inorder r) (fun p hp => ne_of_gt (lt_trans hlt (hR p hp)))]
      · by_cases hgt : k < key
        · rw [remove_of_gt key value k v l r h hgt] at e
          split at e
          · simp at e
          · rename_i r' er
            rw [inorder_removeFix e, inorder, inorder_remove r key value r' hbst.2.2.2 er,
              eraseKey_cons_ne key (k, v) _ (ne_of_lt hgt),
              eraseKey_eq_self key (inorder l) (fun p hp => ne_of_lt (lt_trans (hL p hp) hgt))]
        · have hkey : key = k := le_antisymm (not_lt.mp hgt) (not_lt.mp hlt)
          subst hkey
          rw [eraseKey_cons_self, eraseKey_eq_self key (inorder l) (fun p hp => ne_of_lt (hL p hp)),
            eraseKey_eq_self key (inorder r) (fun p hp => ne_of_gt (hR p hp))]
          by_cases hl : l = null
          · subst hl
            rw [remove_self_left_null] at e
            rw [inorder_removeFix e]
            rfl
          · by_cases hr : r = null
            · subst hr
              rw [remove_self_right_null key value v l h hl] at e
              rw [inorder_removeFix e]
              simp [inorder]
            · rw [remove_self_both key value v l r h hl hr] at e
              obtain ⟨sk, sv, a, b, c, rest, em, hi⟩ := findMin_spec r hr
              rw [em] at e
              simp only at e
              split at e
              · simp at e
              · rename_i r' er
                have hasc := (BST_iff_ascending _).mp hbst.2.2.2
                rw [hi] at hasc
                simp only [Ascending, List.pairwise_cons] at hasc
                have ih := inorder_remove r sk sv r' hbst.2.2.2 er
                rw [hi, eraseKey_cons_self,
                  eraseKey_eq_self sk rest (fun p hp => ne_of_gt (hasc.1 p hp))] at ih
                rw [inorder_removeFix e, inorder, ih, hi]

theorem singleRightRotate_fault {t : Node K V} {e : Fault}
    (h : singleRightRotate t = .error e) : e = Fault.nullChild := by
  unfold singleRightRotate at h
  split at h <;> simp at h
  exact h.symm

theorem singleLeftRotate_fault {t : Node K V} {e : Fault}
    (h : singleLeftRotate t = .error e) : e = Fault.nullChild := by
  unfold singleLeftRotate at h
  split at h <;> simp at h
  exact h.symm

theorem doubleRightRotate_fault {t : Node K V} {e : Fault}
    (h : doubleRightRotate t = .error e) : e = Fault.nullChild := by
  unfold doubleRightRotate at h
  split at h
  · simp at h; exact h.symm
  · split at h
    · rename_i x hx
      simp only [Except.error.injEq] at h
      subst h
      exact singleLeftRotate_fault hx
    · exact singleRightRotate_fault h

theorem doubleLeftRotate_fault {t : Node K V} {e : Fault}
    (h : doubleLeftRotate t = .error e) : e = Fault.nullChild := by
  unfold doubleLeftRotate at h
  split at h
  · simp at h; exact h.symm
  · split at h
    · rename_i x hx
      simp only [Except.error.injEq] at h
      subst h
      exact singleRightRotate_fault hx
    · exact singleLeftRotate_fault h

theorem removeFix_fault {t : Node K V} {e : Fault}
    (h : removeFix t = .error e) : e = Fault.nullChild := by
  unfold removeFix at h
  split at h
  · simp at h
  · simp only at h
    split at h
    · split at h
      · simp at h; exact h.symm
      · split at h
        · exact singleLeftRotate_fault h
        · exact doubleLeftRotate_fault h
    · split at h
      · split at h
        · simp at h; exact h.symm
        · split at h
          · exact singleRightRotate_fault h
          · exact doubleRightRotate_fault h
      · simp at h

/-- The only fault of the recursive `remove` is the dereference of a null child. -/
theorem remove_fault [LinearOrder K] :
    ∀ (t : Node K V) (key : K) (value : V) (e : Fault),
      remove key value t = .error e → e = Fault.nullChild
  | null, key, value, e, h => by simp [remove] at h
  | mk k v l r ht, key, value, e, h => by
      by_cases hlt : key < k
      · rw [remove_of_lt key value k v l r ht hlt] at h
        split at h
        · rename_i x hx
          simp only [Except.error.injEq] at h
          subst h
          exact remove_fault l key value _ hx
        · exact removeFix_fault h
      · by_cases hgt : k < key
        · rw [remove_of_gt key value k v l r ht hgt] at h
          split at h
          · rename_i x hx
            simp only [Except.error.injEq] at h
            subst h
            exact remove_fault r key value _ hx
          · exact removeFix_fault h
        · have hkey : key = k := le_antisymm (not_lt.mp hgt) (not_lt.mp hlt)
          subst hkey
          by_cases hl : l = null
          · subst hl
            rw [remove_self_left_null] at h
            exact removeFix_fault h
          · by_cases hr : r = null
            · subst hr
              rw [remove_self_right_null key value v l ht hl] at h
              exact removeFix_fault h
            · rw [remove_self_both key value v l r ht hl hr] at h
              split at h
              · simp at h; exact h.symm
              · split at h
                · rename_i x hx
                  simp only [Except.error.injEq] at h
                  subst h
                  exact remove_fault r _ _ _ hx
                · exact removeFix_fault h

end Node

namespace Node
variable {K V : Type}

theorem insertSorted_split [LinearOrder K] (key : K) (value : V) :
    ∀ L : List (K × V), ∃ l₁ l₂, L = l₁ ++ l₂ ∧ insertSorted key value L = l₁ ++ (key, value) :: l₂
  | [] => ⟨[], [], rfl, rfl⟩
  | p :: L => by
      by_cases hp : key < p.1
      · exact ⟨[], p :: L, rfl, by simp [insertSorted, hp]⟩
      · obtain ⟨l₁, l₂, h1, h2⟩ := insertSorted_split key value L
        exact ⟨p :: l₁, l₂, by simp [h1], by simp [insertSorted, hp, h2]⟩

theorem eraseKey_split [LinearOrder K] (key : K) (v : V) (L : List (K × V))
    (hasc : Ascending L) (hm : (key, v) ∈ L) :
    ∃ l₁ l₂, L = l₁ ++ (key, v) :: l₂ ∧ eraseKey key L = l₁ ++ l₂ := by
  obtain ⟨l₁, l₂, rfl⟩ := List.append_of_mem hm
  refine ⟨l₁, l₂, rfl, ?_⟩
  simp only [Ascending, List.pairwise_append, List.pairwise_cons, List.mem_cons] at hasc
  rw [eraseKey_append, eraseKey_cons_self,
    eraseKey_eq_self key l₁ (fun p hp => ne_of_lt (hasc.2.2 p hp (key, v) (Or.inl rfl))),
    eraseKey_eq_self key l₂ (fun p hp => ne_of_gt (hasc.2.1.1 p hp))]

theorem not_mem_keys_eraseKey [LinearOrder K] (key : K) (L : List (K × V)) :
    key ∉ (eraseKey key L).map Prod.fst := by
  simp [eraseKey]

theorem ascending_keys_nodup [LinearOrder K] (t : Node K V) (hbst : BST t) : (keys t).Nodup := by
  have h := (BST_iff_ascending t).mp hbst
  unfold keys
  unfold Ascending at h
  rw [List.Nodup, List.pairwise_map]
  exact h.imp (fun hlt => ne_of_lt hlt)

end Node

namespace AVLTree
variable {K V : Type}
open Node

theorem subscript_of_mem [LinearOrder K] (t : AVLTree K V) (hbst : BST t.root) (key : K) (v : V)
    (hm : (key, v) ∈ inorder t.root) : t.subscript key = .ok v := by
  obtain ⟨l, r, h, e⟩ := findKey_of_mem key v t.root hbst hm
  simp only [subscript, searchKey, e]

end AVLTree

/-! ## The claims -/

namespace Node
variable {K V : Type}

/-- C1: for every tree that is BST-ordered, balanced and height-correct, and every key and
value, the recursive `insert` returns a tree, and at every node of that tree the heights
of the two subtrees differ by at most one, both as stored in the height fields and as
depths of the shape. -/
theorem insert_balanced [LinearOrder K] (t : Node K V) (key : K) (value : V)
    (_hbst : BST t) (hbal : Balanced t) (hok : HeightOK t) :
    ∃ t', insert key value t = .ok t' ∧ Balanced t' ∧ DepthBalanced t' := by
  obtain ⟨t', e, ok', b', -⟩ := insert_core key value t hok hbal
  exact ⟨t', e, b', depthBalanced_of_balanced t' ok' b'⟩

/-- Witness of C1: inserting key 0 below the left-heavy tree 2 - 1 forces a rotation. -/
theorem insert_balanced_witness :
    BST AVLTree.leftChain.root ∧
    ∃ t', insert (0 : Int) "z" AVLTree.leftChain.root = .ok t' ∧
      Balanced t' ∧ DepthBalanced t' :=
  ⟨by decide, insert_balanced _ _ _ (by decide) (by decide) (by decide)⟩

/-- C2: for every tree that is BST-ordered, balanced and height-correct, and every key not
stored in it, `insert` returns a tree whose in-order sequence is strictly ascending by key
and is the old sequence with `(key, value)` added at its sorted position: the old sequence
splits in two parts with the new pair between them, so exactly one pair is added and all
other pairs stay as they were. -/
theorem insert_inorder [LinearOrder K] (t : Node K V) (key : K) (value : V)
    (hbst : BST t) (hbal : Balanced t) (hok : HeightOK t) (hk : key ∉ keys t) :
    ∃ t', insert key value t = .ok t' ∧ Ascending (inorder t') ∧
      inorder t' = insertSorted key value (inorder t) ∧
      (inorder t').length = (inorder t).length + 1 ∧
      ∃ l₁ l₂, inorder t = l₁ ++ l₂ ∧ inorder t' = l₁ ++ (key, value) :: l₂ := by
  obtain ⟨t', e, -⟩ := insert_core key value t hok hbal
  have hin := inorder_insert key value t t' hbst hk e
  refine ⟨t', e, ?_, hin, ?_, ?_⟩
  · rw [hin]
    refine ascending_insertSorted key value _ ((BST_iff_ascending _).mp hbst) ?_
    intro p hp heq
    exact hk (mem_keys.mpr ⟨p.2, by rw [← heq]; exact hp⟩)
  · rw [hin, length_insertSorted]
  · rw [hin]
    exact insertSorted_split key value (inorder t)

/-- Witness of C2: key 3 is inserted between the keys 2 and 5. -/
theorem insert_inorder_witness :
    (3 : Int) ∉ keys AVLTree.threeNodes.root ∧
    ∃ t', insert (3 : Int) "c" AVLTree.threeNodes.root = .ok t' ∧ Ascending (inorder t') ∧
      inorder t' = insertSorted (3 : Int) "c" (inorder AVLTree.threeNodes.root) ∧
      (inorder t').length = (inorder AVLTree.threeNodes.root).length + 1 ∧
      ∃ l₁ l₂, inorder AVLTree.threeNodes.root = l₁ ++ l₂ ∧
        inorder t' = l₁ ++ ((3 : Int), "c") :: l₂ :=
  ⟨by decide, insert_inorder _ _ _ (by decide) (by decide) (by decide) (by decide)⟩

/-- C5: for every tree that is BST-ordered, balanced and height-correct, and every key
already stored in it, `insert` returns the very same tree (shape, keys, values and height
fields), whatever value is passed; the key is stored exactly once. -/
theorem insert_duplicate [LinearOrder K] (t : Node K V) (key : K) (value : V)
    (hbst : BST t) (hbal : Balanced t) (hok : HeightOK t) (hk : key ∈ keys t) :
    insert key value t = .ok t ∧ (keys t).count key = 1 :=
  ⟨insert_stored key value t hbst hok hbal hk,
    List.count_eq_one_of_mem (ascending_keys_nodup t hbst) hk⟩

/-- Witness of C5: key 1 is stored with value "a" and is inserted again with value "z". -/
theorem insert_duplicate_witness :
    (1 : Int) ∈ keys AVLTree.threeNodes.root ∧
    insert (1 : Int) "z" AVLTree.threeNodes.root = .ok AVLTree.threeNodes.root ∧
      (keys AVLTree.threeNodes.root).count 1 = 1 :=
  ⟨by decide, insert_duplicate _ _ _ (by decide) (by decide) (by decide) (by decide)⟩

end Node

namespace AVLTree
variable {K V : Type}
open Node

/-- C3: for every list of pairs with pairwise distinct keys, inserting the pairs in list
order into the empty tree succeeds, and on the resulting tree `operator[]` returns `v`
for every pair `(k, v)` of the list. -/
theorem insertAll_subscript [LinearOrder K] (ps : List (K × V))
    (hnd : (ps.map Prod.fst).Nodup) :
    ∃ t, insertAll (empty : AVLTree K V) ps = .ok t ∧ ∀ p ∈ ps, t.subscript p.1 = .ok p.2 := by
  obtain ⟨t, e, hbst, -, -, hmem⟩ := insertAll_core ps (empty : AVLTree K V) trivial trivial
    trivial hnd (fun p _ hm => by simp [empty, keys, inorder] at hm)
  refine ⟨t, e, ?_⟩
  intro p hp
  exact subscript_of_mem t hbst p.1 p.2 ((hmem p).mpr (Or.inr hp))

/-- Witness of C3: four pairs with distinct keys. -/
theorem insertAll_subscript_witness :
    ∃ t, insertAll (empty : AVLTree Int String) [(2, "b"), (1, "a"), (3, "c"), (4, "d")] = .ok t ∧
      ∀ p ∈ [((2 : Int), "b"), (1, "a"), (3, "c"), (4, "d")], t.subscript p.1 = .ok p.2 :=
  insertAll_subscript [(2, "b"), (1, "a"), (3, "c"), (4, "d")] (by decide)

/-- C4: on every BST-ordered tree, `operator[]` throws `invalid_argument` exactly when no
node stores the key, and otherwise returns the value stored with the key. -/
theorem subscript_spec [LinearOrder K] (t : AVLTree K V) (key : K) (hbst : BST t.root) :
    (t.subscript key = .error Fault.invalidArgument ↔ key ∉ keys t.root) ∧
    (∀ v, (key, v) ∈ inorder t.root → t.subscript key = .ok v) := by
  refine ⟨?_, fun v hv => subscript_of_mem t hbst key v hv⟩
  rw [← findKey_eq_null_iff key t.root hbst]
  unfold subscript searchKey
  constructor
  · intro h
    split at h
    · assumption
    · cases h
  · intro h
    rw [h]

/-- Witness of C4: a three-node tree and the key 7, which it does not store. -/
theorem subscript_spec_witness :
    BST threeNodes.root ∧
    (threeNodes.subscript 7 = .error Fault.invalidArgument ↔ (7 : Int) ∉ keys threeNodes.root) ∧
    (∀ v, ((7 : Int), v) ∈ inorder threeNodes.root → threeNodes.subscript 7 = .ok v) :=
  ⟨by decide, subscript_spec threeNodes 7 (by decide)⟩

/-- C7: on every BST-ordered tree and for every stored key, whenever `remove(key)` returns
a tree, the in-order sequence of that tree is the old sequence with the pair of `key`
deleted: the old sequence is `l₁ ++ (key, v) :: l₂`, the new one is `l₁ ++ l₂`, and the key
is no longer stored. -/
theorem remove_inorder [LinearOrder K] (t t' : AVLTree K V) (key : K) (hbst : BST t.root)
    (hk : key ∈ keys t.root) (h : t.remove key = .ok t') :
    inorder t'.root = eraseKey key (inorder t.root) ∧ key ∉ keys t'.root ∧
      ∃ v l₁ l₂, inorder t.root = l₁ ++ (key, v) :: l₂ ∧ inorder t'.root = l₁ ++ l₂ := by
  obtain ⟨v, hv⟩ := mem_keys.mp hk
  unfold remove at h
  split at h
  · cases h
  · rename_i y _ _ _ _
    split at h
    · cases h
    · rename_i r er
      simp only [Except.ok.injEq] at h
      subst h
      have hin := inorder_remove t.root key y r hbst er
      refine ⟨hin, ?_, ?_⟩
      · unfold keys
        rw [hin]
        exact not_mem_keys_eraseKey key _
      · obtain ⟨l₁, l₂, h1, h2⟩ := eraseKey_split key v (inorder t.root)
          ((BST_iff_ascending _).mp hbst) hv
        exact ⟨v, l₁, l₂, h1, by rw [hin, h2]⟩

/-- Witness of C7: removing the root key 2 of a three-node tree promotes the successor 5. -/
theorem remove_inorder_witness :
    (BST threeNodes.root ∧ (2 : Int) ∈ keys threeNodes.root ∧
      threeNodes.remove 2 = .ok threeNodesWithout2) ∧
    inorder threeNodesWithout2.root = eraseKey 2 (inorder threeNodes.root) ∧
      (2 : Int) ∉ keys threeNodesWithout2.root ∧
      ∃ v l₁ l₂, inorder threeNodes.root = l₁ ++ ((2 : Int), v) :: l₂ ∧
        inorder threeNodesWithout2.root = l₁ ++ l₂ :=
  ⟨⟨by decide, by decide, rfl⟩,
    remove_inorder threeNodes threeNodesWithout2 2 (by decide) (by decide) rfl⟩

/-- C8: on every BST-ordered tree, `remove(key)` dereferences the null result of the key
lookup, and so returns no tree, exactly when the key is not stored.  (The other fault of
`remove`, a rotation applied to a node without the child it rotates around, is a
different one and occurs for stored keys only.) -/
theorem remove_nullLookup_iff [LinearOrder K] (t : AVLTree K V) (key : K) (hbst : BST t.root) :
    t.remove key = .error Fault.nullLookup ↔ key ∉ keys t.root := by
  rw [← findKey_eq_null_iff key t.root hbst]
  unfold remove searchKey
  constructor
  · intro h
    split at h
    · assumption
    · split at h
      · rename_i e he
        simp only [Except.error.injEq] at h
        subst h
        have := remove_fault _ _ _ _ he
        cases this
      · cases h
  · intro h
    rw [h]

/-- Witness of C8: a three-node tree and the key 7, which it does not store. -/
theorem remove_nullLookup_iff_witness :
    BST threeNodes.root ∧
    (threeNodes.remove 7 = .error Fault.nullLookup ↔ (7 : Int) ∉ keys threeNodes.root) :=
  ⟨by decide, remove_nullLookup_iff threeNodes 7 (by decide)⟩

end AVLTree

namespace AVLTree
open Node

/-- C6, evaluated on two inputs: both trees are BST-ordered, balanced and height-correct
and store the key removed.  On `rightHeavy`, `remove(1)` makes the right subtree two
levels taller than the left one and then calls `singleRightRotate`, which dereferences
the null left child: no tree is returned.  On `leftHeavy`, `remove(7)` makes the left
subtree two levels taller and then calls `singleLeftRotate`: a tree is returned, and it is
not balanced. -/
theorem remove_not_balanced :
    (BST rightHeavy.root ∧ Balanced rightHeavy.root ∧ HeightOK rightHeavy.root ∧
      (1 : Int) ∈ keys rightHeavy.root ∧
      rightHeavy.remove 1 = .error Fault.nullChild) ∧
    (BST leftHeavy.root ∧ Balanced leftHeavy.root ∧ HeightOK leftHeavy.root ∧
      (7 : Int) ∈ keys leftHeavy.root ∧
      ∃ t, leftHeavy.remove 7 = .ok t ∧ ¬ Balanced t.root ∧ ¬ DepthBalanced t.root) :=
  ⟨⟨by decide, by decide, by decide, by decide, rfl⟩,
    ⟨by decide, by decide, by decide, by decide, _, rfl, by decide, by decide⟩⟩

/-- C9, evaluated on one input: the distinct keys 2, 1, 3, 4 are inserted into the empty
tree, which gives `rightHeavy`, and are then removed in the order 1, 2, 3, 4.  The first
call `remove(1)` already dereferences a null child, so the run returns no tree. -/
theorem insert_then_remove_all_fails :
    insertAll (empty : AVLTree Int String) [(2, "b"), (1, "a"), (3, "c"), (4, "d")]
        = .ok rightHeavy ∧
      removeAll rightHeavy [1, 2, 3, 4] = .error Fault.nullChild :=
  ⟨rfl, rfl⟩

/-- C10: the run of `main`.  After each of the fifteen insertions of the keys 1 to 15 the
tree is balanced; after each of the eight removals of the keys 1, 3, ..., 15 from the full
tree the tree is balanced; and the final tree holds exactly the keys 2, 4, ..., 14 in
in-order, each with the value it was inserted with. -/
theorem main_scenario :
    (∀ n, n ≤ 15 → Returns (fun t : AVLTree Int String => Balanced t.root ∧ DepthBalanced t.root)
      (insertAll empty (plants.take n))) ∧
    ∃ full, insertAll empty plants = .ok full ∧
      (∀ m, m ≤ 8 → Returns (fun t : AVLTree Int String => Balanced t.root ∧ DepthBalanced t.root)
        (removeAll full (oddKeys.take m))) ∧
      ∃ t, removeAll full oddKeys = .ok t ∧
        inorder t.root = [(2, "banan"), (4, "dynia"), (6, "fasola"), (8, "hiacynt"),
          (10, "jablko"), (12, "lilia"), (14, "nektarynka")] :=
  ⟨by decide, _, rfl, by decide, _, rfl, rfl⟩

end AVLTree

/-! ## The tree with parent fields refines the tree without them -/
namespace PNode
variable {K V : Type}

theorem height_null_node : height (null : PNode K V) = -1 := rfl

theorem height_mk_node (a : Addr) (k : K) (v : V) (p : Option Addr) (l r : PNode K V) (h : Int) :
    height (mk a k v p l r h) = h := rfl

theorem height_erase (t : PNode K V) : Node.height (erase t) = height t := by
  cases t <;> rfl

theorem height_setParent (p : Option Addr) (t : PNode K V) : height (setParent p t) = height t := by
  cases t <;> rfl

theorem erase_setParent (p : Option Addr) (t : PNode K V) : erase (setParent p t) = erase t := by
  cases t <;> rfl

theorem entries_setParent (p : Option Addr) (t : PNode K V) :
    entries (setParent p t) = entries t := by
  cases t <;> rfl

theorem inorder_erase : ∀ t : PNode K V, Node.inorder (erase t) = (entries t).map Prod.snd
  | null => rfl
  | mk a k v p l r h => by
      simp [erase, Node.inorder, entries, inorder_erase l, inorder_erase r]

theorem length_entries : ∀ t : PNode K V, (entries t).length = size t
  | null => rfl
  | mk a k v p l r h => by
      simp only [entries, size, List.length_append, List.length_cons, length_entries l,
        length_entries r]
      omega

theorem erase_singleRightRotate (t : PNode K V) :
    (singleRightRotate t).map erase = Node.singleRightRotate (erase t) := by
  cases t with
  | null => rfl
  | mk a k v p l r h =>
    cases l with
    | null => rfl
    | mk la lk lv lp ll lr lh =>
      simp [singleRightRotate, Node.singleRightRotate, Except.map, erase, height_erase,
        erase_setParent]

theorem erase_singleLeftRotate (t : PNode K V) :
    (singleLeftRotate t).map erase = Node.singleLeftRotate (erase t) := by
  cases t with
  | null => rfl
  | mk a k v p l r h =>
    cases r with
    | null => rfl
    | mk ra rk rv rp rl rr rh =>
      simp [singleLeftRotate, Node.singleLeftRotate, Except.map, erase, height_erase,
        erase_setParent]

theorem erase_doubleRightRotate (t : PNode K V) :
    (doubleRightRotate t).map erase = Node.doubleRightRotate (erase t) := by
  cases t with
  | null => rfl
  | mk a k v p l r h =>
    simp only [doubleRightRotate, Node.doubleRightRotate, erase]
    rw [← erase_singleLeftRotate l]
    cases e : singleLeftRotate l with
    | error x => rfl
    | ok l' => exact erase_singleRightRotate (mk a k v p l' r h)

theorem erase_doubleLeftRotate (t : PNode K V) :
    (doubleLeftRotate t).map erase = Node.doubleLeftRotate (erase t) := by
  cases t with
  | null => rfl
  | mk a k v p l r h =>
    simp only [doubleLeftRotate, Node.doubleLeftRotate, erase]
    rw [← erase_singleRightRotate r]
    cases e : singleRightRotate r with
    | error x => rfl
    | ok r' => exact erase_singleLeftRotate (mk a k v p l r' h)

theorem erase_setHeight (t : PNode K V) :
    (setHeight t).map erase = Node.setHeight (erase t) := by
  cases t with
  | null => rfl
  | mk a k v p l r h => simp [setHeight, Node.setHeight, Except.map, erase, height_erase]

theorem erase_insertFixLeft [LinearOrder K] (key : K) (t : PNode K V) :
    (insertFixLeft key t).map erase = Node.insertFixLeft key (erase t) := by
  cases t with
  | null => rfl
  | mk a k v p l r h =>
    simp only [insertFixLeft, Node.insertFixLeft, erase, height_erase]
    split
    · cases l with
      | null => rfl
      | mk la lk lv lp ll lr lh =>
        simp only [erase]
        split
        · exact erase_singleRightRotate _
        · exact erase_doubleRightRotate _
    · rfl

theorem erase_insertFixRight [LinearOrder K] (key : K) (t : PNode K V) :
    (insertFixRight key t).map erase = Node.insertFixRight key (erase t) := by
  cases t with
  | null => rfl
  | mk a k v p l r h =>
    simp only [insertFixRight, Node.insertFixRight, erase, height_erase]
    split
    · cases r with
      | null => rfl
      | mk ra rk rv rp rl rr rh =>
        simp only [erase]
        split
        · exact erase_singleLeftRotate _
        · exact erase_doubleLeftRotate _
    · rfl

theorem setHeight_ne_null {t t' : PNode K V} (e : setHeight t = .ok t') : t' ≠ null := by
  cases t with
  | null => simp [setHeight] at e
  | mk a k v p l r h =>
    simp only [setHeight, Except.ok.injEq] at e
    subst e
    simp

theorem insert_ne_null [LinearOrder K] (fresh : Addr) (key : K) (value : V) (t t' : PNode K V)
    (e : insert fresh key value t = .ok t') : t' ≠ null := by
  cases t with
  | null => exact setHeight_ne_null e
  | mk a k v p l r h =>
    simp only [insert] at e
    split at e
    · split at e
      · cases e
      · split at e
        · cases e
        · split at e
          · cases e
          · exact setHeight_ne_null e
    · split at e
      · split at e
        · cases e
        · split at e
          · cases e
          · split at e
            · cases e
            · exact setHeight_ne_null e
      · exact setHeight_ne_null e

/-- The recursive `insert` with parent fields is the recursive `insert` of the first
embedding once addresses and parents are forgotten. -/
theorem erase_insert [LinearOrder K] (fresh : Addr) (key : K) (value : V) :
    ∀ t : PNode K V, (insert fresh key value t).map erase = Node.insert key value (erase t)
  | null => rfl
  | mk a k v p l r h => by
      simp only [insert, Node.insert, erase]
      split
      · rw [← erase_insert fresh key value l]
        cases e : insert fresh key value l with
        | error x => rfl
        | ok l' =>
          cases l' with
          | null => exact absurd rfl (insert_ne_null fresh key value l _ e)
          | mk la lk lv lp ll lr lh =>
            simp only [linkChild, Except.map, erase]
            have h1 := erase_insertFixLeft key (mk a k v p (mk la lk lv (some a) ll lr lh) r h)
            simp only [erase] at h1
            rw [← h1]
            cases e1 : insertFixLeft key (mk a k v p (mk la lk lv (some a) ll lr lh) r h) with
            | error x => rfl
            | ok n => exact erase_setHeight n
      · split
        · rw [← erase_insert fresh key value r]
          cases e : insert fresh key value r with
          | error x => rfl
          | ok r' =>
            cases r' with
            | null => exact absurd rfl (insert_ne_null fresh key value r _ e)
            | mk ra rk rv rp rl rr rh =>
              simp only [linkChild, Except.map, erase]
              have h1 := erase_insertFixRight key (mk a k v p l (mk ra rk rv (some a) rl rr rh) h)
              simp only [erase] at h1
              rw [← h1]
              cases e1 : insertFixRight key (mk a k v p l (mk ra rk rv (some a) rl rr rh) h) with
              | error x => rfl
              | ok n => exact erase_setHeight n
        · exact erase_setHeight (mk a k v p l r h)

theorem erase_insert_ok [LinearOrder K] {fresh : Addr} {key : K} {value : V} {t t' : PNode K V}
    (e : insert fresh key value t = .ok t') : Node.insert key value (erase t) = .ok (erase t') := by
  rw [← erase_insert fresh key value t, e]
  rfl

theorem insert_ok_of_erase [LinearOrder K] (fresh : Addr) {key : K} {value : V} {t : PNode K V}
    {n : Node K V} (e : Node.insert key value (erase t) = .ok n) :
    ∃ t', insert fresh key value t = .ok t' ∧ erase t' = n := by
  rw [← erase_insert fresh key value t] at e
  cases e1 : insert fresh key value t with
  | error x => rw [e1] at e; cases e
  | ok t' =>
    rw [e1] at e
    simp only [Except.map, Except.ok.injEq] at e
    exact ⟨t', rfl, e⟩

end PNode

/-! ## Insertion keeps the parent fields consistent -/
namespace PNode
variable {K V : Type}

theorem linked_setParent {q : Option Addr} (p : Option Addr) {t : PNode K V}
    (h : Linked q t) : Linked p (setParent p t) := by
  cases t with
  | null => trivial
  | mk a k v par l r ht => exact ⟨rfl, h.2.1, h.2.2⟩

theorem linked_linkChild {q : Option Addr} {a : Addr} {t t' : PNode K V} (h : Linked q t)
    (e : linkChild a t = .ok t') : Linked (some a) t' := by
  cases t with
  | null => cases e
  | mk na k v par l r ht =>
    simp only [linkChild, Except.ok.injEq] at e
    subst e
    exact ⟨rfl, h.2.1, h.2.2⟩

theorem linked_singleRightRotate {p : Option Addr} {t t' : PNode K V} (h : Linked p t)
    (e : singleRightRotate t = .ok t') : Linked p t' := by
  cases t with
  | null => cases e
  | mk a k v par l r ht =>
    cases l with
    | null => cases e
    | mk la lk lv lp ll lr lh =>
      simp only [singleRightRotate, Except.ok.injEq] at e
      subst e
      obtain ⟨h1, ⟨-, h3, h4⟩, h5⟩ := h
      exact ⟨h1, h3, rfl, linked_setParent _ h4, h5⟩

theorem linked_singleLeftRotate {p : Option Addr} {t t' : PNode K V} (h : Linked p t)
    (e : singleLeftRotate t = .ok t') : Linked p t' := by
  cases t with
  | null => cases e
  | mk a k v par l r ht =>
    cases r with
    | null => cases e
    | mk ra rk rv rp rl rr rh =>
      simp only [singleLeftRotate, Except.ok.injEq] at e
      subst e
      obtain ⟨h1, h2, -, h4, h5⟩ := h
      exact ⟨h1, ⟨rfl, h2, linked_setParent _ h4⟩, h5⟩

theorem linked_doubleRightRotate {p : Option Addr} {t t' : PNode K V} (h : Linked p t)
    (e : doubleRightRotate t = .ok t') : Linked p t' := by
  cases t with
  | null => cases e
  | mk a k v par l r ht =>
    simp only [doubleRightRotate] at e
    cases e1 : singleLeftRotate l with
    | error x => rw [e1] at e; cases e
    | ok l' =>
      rw [e1] at e
      exact linked_singleRightRotate
        (show Linked p (mk a k v par l' r ht) from ⟨h.1, linked_singleLeftRotate h.2.1 e1, h.2.2⟩) e

theorem linked_doubleLeftRotate {p : Option Addr} {t t' : PNode K V} (h : Linked p t)
    (e : doubleLeftRotate t = .ok t') : Linked p t' := by
  cases t with
  | null => cases e
  | mk a k v par l r ht =>
    simp only [doubleLeftRotate] at e
    cases e1 : singleRightRotate r with
    | error x => rw [e1] at e; cases e
    | ok r' =>
      rw [e1] at e
      exact linked_singleLeftRotate
        (show Linked p (mk a k v par l r' ht) from ⟨h.1, h.2.1, linked_singleRightRotate h.2.2 e1⟩) e

theorem linked_setHeight {p : Option Addr} {t t' : PNode K V} (h : Linked p t)
    (e : setHeight t = .ok t') : Linked p t' := by
  cases t with
  | null => cases e
  | mk a k v par l r ht =>
    simp only [setHeight, Except.ok.injEq] at e
    subst e
    exact h

theorem linked_insertFixLeft [LinearOrder K] {key : K} {p : Option Addr} {t t' : PNode K V}
    (h : Linked p t) (e : insertFixLeft key t = .ok t') : Linked p t' := by
  cases t with
  | null => cases e
  | mk a k v par l r ht =>
    simp only [insertFixLeft] at e
    split at e
    · split at e
      · cases e
      · split at e
        · exact linked_singleRightRotate h e
        · exact linked_doubleRightRotate h e
    · simp only [Except.ok.injEq] at e
      subst e
      exact h

theorem linked_insertFixRight [LinearOrder K] {key : K} {p : Option Addr} {t t' : PNode K V}
    (h : Linked p t) (e : insertFixRight key t = .ok t') : Linked p t' := by
  cases t with
  | null => cases e
  | mk a k v par l r ht =>
    simp only [insertFixRight] at e
    split at e
    · split at e
      · cases e
      · split at e
        · exact linked_singleLeftRotate h e
        · exact linked_doubleLeftRotate h e
    · simp only [Except.ok.injEq] at e
      subst e
      exact h

/-- The recursive `insert` keeps the parent fields consistent: the result is linked below
the parent of the old root, or below `NULL` when the old tree was empty. -/
theorem linked_insert [LinearOrder K] (fresh : Addr) (key : K) (value : V) :
    ∀ (t t' : PNode K V) (p : Option Addr), Linked p t → insert fresh key value t = .ok t' →
      ∃ q, Linked q t' ∧ (t ≠ null → q = p) ∧ (t = null → q = none)
  | null, t', p, _, e => by
      simp only [insert, setHeight, Except.ok.injEq] at e
      subst e
      exact ⟨none, ⟨rfl, trivial, trivial⟩, fun h => absurd rfl h, fun _ => rfl⟩
  | mk a k v par l r ht, t', p, h, e => by
      refine ⟨p, ?_, fun _ => rfl, fun h0 => by cases h0⟩
      simp only [insert] at e
      split at e
      · split at e
        · cases e
        · rename_i l' el
          obtain ⟨q, hq, -⟩ := linked_insert fresh key value l l' (some a) h.2.1 el
          split at e
          · cases e
          · rename_i l'' el'
            split at e
            · cases e
            · rename_i n en
              exact linked_setHeight (linked_insertFixLeft
                (show Linked p (mk a k v par l'' r ht) from
                  ⟨h.1, linked_linkChild hq el', h.2.2⟩) en) e
      · split at e
        · split at e
          · cases e
          · rename_i r' er
            obtain ⟨q, hq, -⟩ := linked_insert fresh key value r r' (some a) h.2.2 er
            split at e
            · cases e
            · rename_i r'' er'
              split at e
              · cases e
              · rename_i n en
                exact linked_setHeight (linked_insertFixRight
                  (show Linked p (mk a k v par l r'' ht) from
                    ⟨h.1, h.2.1, linked_linkChild hq er'⟩) en) e
        · exact linked_setHeight h e

theorem linked_insert_root [LinearOrder K] {fresh : Addr} {key : K} {value : V}
    {t t' : PNode K V} (h : Linked none t) (e : insert fresh key value t = .ok t') :
    Linked none t' := by
  obtain ⟨q, hq, h1, h2⟩ := linked_insert fresh key value t t' none h e
  by_cases ht : t = null
  · rw [h2 ht] at hq; exact hq
  · rw [h1 ht] at hq; exact hq

theorem entries_singleRightRotate {t t' : PNode K V} (e : singleRightRotate t = .ok t') :
    entries t' = entries t := by
  cases t with
  | null => cases e
  | mk a k v par l r ht =>
    cases l with
    | null => cases e
    | mk la lk lv lp ll lr lh =>
      simp only [singleRightRotate, Except.ok.injEq] at e
      subst e
      simp [entries, entries_setParent]

theorem entries_singleLeftRotate {t t' : PNode K V} (e : singleLeftRotate t = .ok t') :
    entries t' = entries t := by
  cases t with
  | null => cases e
  | mk a k v par l r ht =>
    cases r with
    | null => cases e
    | mk ra rk rv rp rl rr rh =>
      simp only [singleLeftRotate, Except.ok.injEq] at e
      subst e
      simp [entries, entries_setParent]

theorem entries_doubleRightRotate {t t' : PNode K V} (e : doubleRightRotate t = .ok t') :
    entries t' = entries t := by
  cases t with
  | null => cases e
  | mk a k v par l r ht =>
    simp only [doubleRightRotate] at e
    cases e1 : singleLeftRotate l with
    | error x => rw [e1] at e; cases e
    | ok l' =>
      rw [e1] at e
      rw [entries_singleRightRotate e]
      simp [entries, entries_singleLeftRotate e1]

theorem entries_doubleLeftRotate {t t' : PNode K V} (e : doubleLeftRotate t = .ok t') :
    entries t' = entries t := by
  cases t with
  | null => cases e
  | mk a k v par l r ht =>
    simp only [doubleLeftRotate] at e
    cases e1 : singleRightRotate r with
    | error x => rw [e1] at e; cases e
    | ok r' =>
      rw [e1] at e
      rw [entries_singleLeftRotate e]
      simp [entries, entries_singleRightRotate e1]

theorem entries_setHeight {t t' : PNode K V} (e : setHeight t = .ok t') :
    entries t' = entries t := by
  cases t with
  | null => cases e
  | mk a k v par l r ht =>
    simp only [setHeight, Except.ok.injEq] at e
    subst e
    rfl

theorem entries_linkChild {a : Addr} {t t' : PNode K V} (e : linkChild a t = .ok t') :
    entries t' = entries t := by
  cases t with
  | null => cases e
  | mk na k v par l r ht =>
    simp only [linkChild, Except.ok.injEq] at e
    subst e
    rfl

theorem entries_insertFixLeft [LinearOrder K] {key : K} {t t' : PNode K V}
    (e : insertFixLeft key t = .ok t') : entries t' = entries t := by
  cases t with
  | null => cases e
  | mk a k v par l r ht =>
    simp only [insertFixLeft] at e
    split at e
    · split at e
      · cases e
      · split at e
        · exact entries_singleRightRotate e
        · exact entries_doubleRightRotate e
    · simp only [Except.ok.injEq] at e
      subst e
      rfl

theorem entries_insertFixRight [LinearOrder K] {key : K} {t t' : PNode K V}
    (e : insertFixRight key t = .ok t') : entries t' = entries t := by
  cases t with
  | null => cases e
  | mk a k v par l r ht =>
    simp only [insertFixRight] at e
    split at e
    · split at e
      · cases e
      · split at e
        · exact entries_singleLeftRotate e
        · exact entries_doubleLeftRotate e
    · simp only [Except.ok.injEq] at e
      subst e
      rfl

/-- The recursive `insert` keeps the nodes it finds and adds at most the fresh one. -/
theorem entries_insert [LinearOrder K] (fresh : Addr) (key : K) (value : V) :
    ∀ (t t' : PNode K V), insert fresh key value t = .ok t' →
      entries t' = entries t ∨ (entries t').Perm ((fresh, key, value) :: entries t)
  | null, t', e => by
      simp only [insert, setHeight, Except.ok.injEq] at e
      subst e
      exact Or.inr (List.Perm.refl _)
  | mk a k v par l r ht, t', e => by
      simp only [insert] at e
      split at e
      · split at e
        · cases e
        · rename_i l' el
          have ih := entries_insert fresh key value l l' el
          split at e
          · cases e
          · rename_i l'' el'
            split at e
            · cases e
            · rename_i n en
              rw [entries_setHeight e, entries_insertFixLeft en]
              simp only [entries, entries_linkChild el']
              rcases ih with ih | ih
              · left; rw [ih]
              · right
                exact (ih.append_right _).trans (by simp)
      · split at e
        · split at e
          · cases e
          · rename_i r' er
            have ih := entries_insert fresh key value r r' er
            split at e
            · cases e
            · rename_i r'' er'
              split at e
              · cases e
              · rename_i n en
                rw [entries_setHeight e, entries_insertFixRight en]
                simp only [entries, entries_linkChild er']
                rcases ih with ih | ih
                · left; rw [ih]
                · right
                  refine ((List.Perm.cons _ ih).append_left _).trans ?_
                  have h2 : entries l ++ (a, k, v) :: (fresh, key, value) :: entries r =
                      (entries l ++ [(a, k, v)]) ++ (fresh, key, value) :: entries r := by simp
                  have h3 : (fresh, key, value) :: (entries l ++ (a, k, v) :: entries r) =
                      (fresh, key, value) :: ((entries l ++ [(a, k, v)]) ++ entries r) := by simp
                  rw [h2, h3]
                  exact List.perm_middle
        · left; exact entries_setHeight e

end PNode

/-! ## Trees built by insertions; pointers into a tree -/

namespace Node
variable {K V : Type}

/-- Insertion keeps the BST ordering of a tree that is balanced and height-correct. -/
theorem insert_BST [LinearOrder K] (key : K) (value : V) (t t' : Node K V) (hbst : BST t)
    (hbal : Balanced t) (hok : HeightOK t) (e : insert key value t = .ok t') : BST t' := by
  by_cases hk : key ∈ keys t
  · have := insert_stored key value t hbst hok hbal hk
    rw [this] at e
    simp only [Except.ok.injEq] at e
    subst e
    exact hbst
  · rw [BST_iff_ascending, inorder_insert key value t t' hbst hk e]
    refine ascending_insertSorted key value _ ((BST_iff_ascending _).mp hbst) ?_
    intro p hp heq
    exact hk (mem_keys.mpr ⟨p.2, by rw [← heq]; exact hp⟩)

end Node

namespace PNode
variable {K V : Type}

theorem addrs_mk (a : Addr) (k : K) (v : V) (p : Option Addr) (l r : PNode K V) (h : Int) :
    addrs (mk a k v p l r h) = addrs l ++ a :: addrs r := by
  simp [addrs, entries]

/-- A tree built by insertions is well-formed, and without its addresses and parents it is
BST-ordered, balanced and height-correct. -/
theorem built_inv [LinearOrder K] {t : PNode K V} (hb : Built t) :
    WF t ∧ Node.BST (erase t) ∧ Node.Balanced (erase t) ∧ Node.HeightOK (erase t) := by
  induction hb with
  | empty => exact ⟨⟨trivial, List.nodup_nil⟩, trivial, trivial, trivial⟩
  | @step t t' fresh key value _ hfresh e ih =>
    obtain ⟨⟨hl, hn⟩, hbst, hbal, hok⟩ := ih
    have e' := erase_insert_ok e
    obtain ⟨n, en, okn, baln, -⟩ := Node.insert_core key value (erase t) hok hbal
    rw [e'] at en
    simp only [Except.ok.injEq] at en
    subst en
    refine ⟨⟨linked_insert_root hl e, ?_⟩, Node.insert_BST key value _ _ hbst hbal hok e', baln,
      okn⟩
    rcases entries_insert fresh key value t t' e with h | h
    · unfold addrs
      rw [h]
      exact hn
    · have hp : (addrs t').Perm (fresh :: addrs t) := by
        unfold addrs
        exact h.map Prod.fst
      exact hp.nodup_iff.mpr (List.nodup_cons.mpr ⟨hfresh, hn⟩)

theorem deref_eq_null_of_not_mem (a : Addr) :
    ∀ t : PNode K V, a ∉ addrs t → deref a t = null
  | null, _ => rfl
  | mk na k v p l r h, hm => by
      rw [addrs_mk, List.mem_append, List.mem_cons] at hm
      have h1 : ¬ na = a := fun h0 => hm (Or.inr (Or.inl h0.symm))
      simp only [deref, if_neg h1, deref_eq_null_of_not_mem a l (fun h0 => hm (Or.inl h0)),
        deref_eq_null_of_not_mem a r (fun h0 => hm (Or.inr (Or.inr h0)))]

theorem deref_ne_null_of_mem (a : Addr) :
    ∀ t : PNode K V, a ∈ addrs t → deref a t ≠ null
  | null, hm => by simp [addrs, entries] at hm
  | mk na k v p l r h, hm => by
      rw [addrs_mk, List.mem_append, List.mem_cons] at hm
      simp only [deref]
      split
      · simp
      · rename_i hne
        rcases hm with hm | hm | hm
        · have := deref_ne_null_of_mem a l hm
          split
          · rename_i h0; exact absurd h0 this
          · simp
        · exact absurd hm.symm hne
        · split
          · exact deref_ne_null_of_mem a r hm
          · simp

theorem deref_mk_self (a : Addr) (k : K) (v : V) (p : Option Addr) (l r : PNode K V) (h : Int) :
    deref a (mk a k v p l r h) = mk a k v p l r h := by
  simp [deref]

theorem deref_mk_left {a na : Addr} {k : K} {v : V} {p : Option Addr} {l r : PNode K V} {h : Int}
    (hne : na ≠ a) (hm : a ∈ addrs l) : deref a (mk na k v p l r h) = deref a l := by
  have := deref_ne_null_of_mem a l hm
  simp only [deref, if_neg hne]
  split
  · rename_i h0; exact absurd h0 this
  · rename_i h0; exact h0.symm

theorem deref_mk_right {a na : Addr} {k : K} {v : V} {p : Option Addr} {l r : PNode K V} {h : Int}
    (hne : na ≠ a) (hm : a ∉ addrs l) : deref a (mk na k v p l r h) = deref a r := by
  simp only [deref, if_neg hne, deref_eq_null_of_not_mem a l hm]

theorem sub_entries {T s : PNode K V} (hs : Sub T s) :
    ∃ pre post, entries T = pre ++ entries s ++ post := by
  induction hs with
  | root => exact ⟨[], [], by simp⟩
  | @left a k v p l r h _ ih =>
    obtain ⟨pre, post, e⟩ := ih
    exact ⟨pre, (a, k, v) :: entries r ++ post, by simp [e, entries]⟩
  | @right a k v p l r h _ ih =>
    obtain ⟨pre, post, e⟩ := ih
    exact ⟨pre ++ entries l ++ [(a, k, v)], post, by simp [e, entries]⟩

theorem sub_nodup {T s : PNode K V} (hs : Sub T s) (hn : (addrs T).Nodup) : (addrs s).Nodup := by
  obtain ⟨pre, post, e⟩ := sub_entries hs
  unfold addrs at hn ⊢
  rw [e, List.map_append, List.map_append] at hn
  exact (List.nodup_append.mp (List.nodup_append.mp hn).1).2.1

theorem sub_mem {T s : PNode K V} (hs : Sub T s) {a : Addr} (ha : a ∈ addrs s) : a ∈ addrs T := by
  obtain ⟨pre, post, e⟩ := sub_entries hs
  unfold addrs at ha ⊢
  rw [e]
  simp only [List.map_append, List.mem_append]
  exact Or.inl (Or.inr ha)

theorem sub_size {T s : PNode K V} (hs : Sub T s) : size s ≤ size T := by
  induction hs with
  | root => exact le_refl _
  | left _ ih => simp only [size] at ih; omega
  | right _ ih => simp only [size] at ih; omega

theorem sub_linked {T s : PNode K V} (hl : Linked none T) (hs : Sub T s) : ∃ q, Linked q s := by
  induction hs with
  | root => exact ⟨none, hl⟩
  | left _ ih => obtain ⟨q, hq⟩ := ih; exact ⟨_, hq.2.1⟩
  | right _ ih => obtain ⟨q, hq⟩ := ih; exact ⟨_, hq.2.2⟩

/-- In a tree without shared addresses a pointer to a node of a subtree is dereferenced
to the same node in the subtree and in the whole tree. -/
theorem deref_sub {T s : PNode K V} (hn : (addrs T).Nodup) (hs : Sub T s) :
    ∀ a, a ∈ addrs s → deref a T = deref a s := by
  induction hs with
  | root => intro a _; rfl
  | @left na k v p l r h hs' ih =>
    intro a ha
    have hn' := sub_nodup hs' hn
    rw [addrs_mk] at hn'
    have hne : na ≠ a := by
      intro h0
      subst h0
      exact (List.nodup_append.mp hn').2.2 ha (List.mem_cons_self _ _)
    rw [ih a (by rw [addrs_mk]; exact List.mem_append_left _ ha), deref_mk_left hne ha]
  | @right na k v p l r h hs' ih =>
    intro a ha
    have hn' := sub_nodup hs' hn
    rw [addrs_mk] at hn'
    have hne : na ≠ a := by
      intro h0
      subst h0
      exact (List.nodup_cons.mp (List.nodup_append.mp hn').2.1).1 ha
    have hnl : a ∉ addrs l := fun h0 =>
      (List.nodup_append.mp hn').2.2 h0 (List.mem_cons_of_mem _ ha)
    rw [ih a (by rw [addrs_mk]; exact List.mem_append_right _ (List.mem_cons_of_mem _ ha)),
      deref_mk_right hne hnl]

theorem deref_sub_mk {T : PNode K V} (hn : (addrs T).Nodup) {a : Addr} {k : K} {v : V}
    {p : Option Addr} {l r : PNode K V} {h : Int} (hs : Sub T (mk a k v p l r h)) :
    deref a T = mk a k v p l r h := by
  rw [deref_sub hn hs a (by rw [addrs_mk]; simp), deref_mk_self]

end PNode

/-! ## Forward iteration -/

namespace PNode
variable {K V : Type}

theorem rootAddr_mem {t : PNode K V} {a : Addr} (h : rootAddr t = some a) : a ∈ addrs t := by
  cases t with
  | null => cases h
  | mk na k v p l r ht =>
    simp only [rootAddr, Option.some.injEq] at h
    subst h
    rw [addrs_mk]
    simp

theorem ascendRight_none (T : PNode K V) (fuel : Nat) (a : Addr) :
    ascendRight T fuel a none = some (.ok none) := by
  cases fuel <;> rfl

theorem ascendLeft_none (T : PNode K V) (fuel : Nat) (a : Addr) :
    ascendLeft T fuel a none = some (.ok none) := by
  cases fuel <;> rfl

/-- The ascent of `operator++` that starts at the root of a subtree ends at the node that
follows the subtree in in-order, or at the null pointer when nothing follows it. -/
theorem ascendRight_sub {T : PNode K V} (hwf : WF T) {s : PNode K V} (hs : Sub T s) :
    ∀ a k v p l r h, s = mk a k v p l r h →
      ∃ pre post, entries T = pre ++ entries s ++ post ∧
        ∀ fuel, size T ≤ fuel + size s →
          ascendRight T fuel a p = some (.ok (post.head?.map Prod.fst)) := by
  induction hs with
  | root =>
    intro a k v p l r h e
    subst e
    have hp : p = none := hwf.1.1
    subst hp
    exact ⟨[], [], by simp, fun fuel _ => ascendRight_none _ fuel a⟩
  | @left na nk nv np nl nr nh hs' ih =>
    intro a k v p l r h e
    subst e
    obtain ⟨pre, post, he, -⟩ := ih na nk nv np _ nr nh rfl
    obtain ⟨q, hq⟩ := sub_linked hwf.1 hs'
    have hp : p = some na := hq.2.1.1
    subst hp
    refine ⟨pre, (na, nk, nv) :: entries nr ++ post, by simp [he, entries], ?_⟩
    intro fuel hf
    have hsz := sub_size hs'
    have hn' := sub_nodup hs' hwf.2
    rw [addrs_mk] at hn'
    have hne : ¬ rootAddr nr = some a := by
      intro h0
      have h1 : a ∈ addrs (mk a k v (some na) l r h) := rootAddr_mem rfl
      exact (List.nodup_append.mp hn').2.2 h1 (List.mem_cons_of_mem _ (rootAddr_mem h0))
    obtain ⟨f, rfl⟩ : ∃ f, fuel = f + 1 := ⟨fuel - 1, by simp only [size] at hsz hf; omega⟩
    simp only [ascendRight, deref_sub_mk hwf.2 hs', if_neg hne]
    simp
  | @right na nk nv np nl nr nh hs' ih =>
    intro a k v p l r h e
    subst e
    obtain ⟨pre, post, he, hasc⟩ := ih na nk nv np nl _ nh rfl
    obtain ⟨q, hq⟩ := sub_linked hwf.1 hs'
    have hp : p = some na := hq.2.2.1
    subst hp
    refine ⟨pre ++ entries nl ++ [(na, nk, nv)], post, by simp [he, entries], ?_⟩
    intro fuel hf
    have hsz := sub_size hs'
    obtain ⟨f, rfl⟩ : ∃ f, fuel = f + 1 := ⟨fuel - 1, by simp only [size] at hsz hf; omega⟩
    have h1 : rootAddr (mk a k v (some na) l r h) = some a := rfl
    simp only [ascendRight, deref_sub_mk hwf.2 hs', h1, if_true]
    exact hasc f (by simp only [size] at hsz hf ⊢; omega)

theorem sub_trans {T s u : PNode K V} (h1 : Sub T s) (h2 : Sub s u) : Sub T u := by
  induction h2 with
  | root => exact h1
  | left _ ih => exact Sub.left ih
  | right _ ih => exact Sub.right ih

theorem exists_sub_of_mem (a : Addr) :
    ∀ T : PNode K V, a ∈ addrs T → ∃ k v p l r h, Sub T (mk a k v p l r h)
  | null, hm => by simp [addrs, entries] at hm
  | mk na k v p l r h, hm => by
      rw [addrs_mk, List.mem_append, List.mem_cons] at hm
      rcases hm with hm | hm | hm
      · obtain ⟨k', v', p', l', r', h', hs⟩ := exists_sub_of_mem a l hm
        exact ⟨k', v', p', l', r', h', sub_trans (Sub.left Sub.root) hs⟩
      · subst hm
        exact ⟨k, v, p, l, r, h, Sub.root⟩
      · obtain ⟨k', v', p', l', r', h', hs⟩ := exists_sub_of_mem a r hm
        exact ⟨k', v', p', l', r', h', sub_trans (Sub.right Sub.root) hs⟩

theorem split_unique {α β : Type} :
    ∀ (p₁ p₂ r₁ r₂ : List (α × β)) (x y : α × β), ((p₁ ++ x :: r₁).map Prod.fst).Nodup →
      p₁ ++ x :: r₁ = p₂ ++ y :: r₂ → x.1 = y.1 → p₁ = p₂ ∧ x = y ∧ r₁ = r₂
  | [], [], r₁, r₂, x, y, _, e, _ => by
      simp only [List.nil_append, List.cons.injEq] at e
      exact ⟨rfl, e.1, e.2⟩
  | [], z :: p₂, r₁, r₂, x, y, hn, e, hxy => by
      simp only [List.nil_append, List.cons_append, List.cons.injEq] at e
      obtain ⟨rfl, rfl⟩ := e
      simp only [List.nil_append, List.map_cons, List.map_append, List.nodup_cons,
        List.mem_append, List.mem_cons, List.mem_map] at hn
      exact absurd (Or.inr (Or.inl hxy)) hn.1
  | z :: p₁, [], r₁, r₂, x, y, hn, e, hxy => by
      simp only [List.nil_append, List.cons_append, List.cons.injEq] at e
      obtain ⟨rfl, rfl⟩ := e
      simp only [List.cons_append, List.map_cons, List.map_append, List.nodup_cons,
        List.mem_append, List.mem_cons, List.mem_map] at hn
      exact absurd (Or.inr (Or.inl hxy.symm)) hn.1
  | z :: p₁, w :: p₂, r₁, r₂, x, y, hn, e, hxy => by
      simp only [List.cons_append, List.cons.injEq] at e
      obtain ⟨rfl, e⟩ := e
      simp only [List.cons_append, List.map_cons, List.nodup_cons] at hn
      obtain ⟨h1, h2, h3⟩ := split_unique p₁ p₂ r₁ r₂ x y hn.2 e hxy
      exact ⟨by rw [h1], h2, h3⟩

theorem findMin_head : ∀ t : PNode K V, rootAddr (findMin t) = (entries t).head?.map Prod.fst
  | null => rfl
  | mk a k v p null r h => rfl
  | mk a k v p (mk la lk lv lp ll lr lh) r h => by
      have ih := findMin_head (mk la lk lv lp ll lr lh)
      have hne : entries (mk la lk lv lp ll lr lh) ≠ [] := by simp [entries]
      rw [findMin, ih]
      conv_rhs => rw [entries]
      rw [List.head?_append_of_ne_nil _ hne]

/-- In a well-formed tree `it++` moves `it` from a node to the node that follows it in
in-order, and to the null pointer from the last node. -/
theorem postIncrement_spec {T : PNode K V} (hwf : WF T) {pre rest : List (Addr × K × V)}
    {a : Addr} {k : K} {v : V} (he : entries T = pre ++ (a, k, v) :: rest) {fuel : Nat}
    (hf : size T ≤ fuel) :
    (∃ p l r h, deref a T = mk a k v p l r h) ∧
      postIncrement T fuel (some a) = some (.ok (rest.head?.map Prod.fst)) := by
  have hm : a ∈ addrs T := by
    unfold addrs
    rw [he]
    simp
  obtain ⟨k', v', p, l, r, h, hs⟩ := exists_sub_of_mem a T hm
  obtain ⟨pre', post', he', hasc⟩ := ascendRight_sub hwf hs a k' v' p l r h rfl
  have hn : ((pre ++ (a, k, v) :: rest).map Prod.fst).Nodup := by
    rw [← he]
    exact hwf.2
  have he2 : pre ++ (a, k, v) :: rest = (pre' ++ entries l) ++ (a, k', v') :: (entries r ++ post') := by
    rw [← he, he']
    simp [entries]
  obtain ⟨-, hx, hr⟩ := split_unique _ _ _ _ _ _ hn he2 rfl
  simp only [Prod.mk.injEq] at hx
  obtain ⟨-, rfl, rfl⟩ := hx
  have hd := deref_sub_mk hwf.2 hs
  refine ⟨⟨p, l, r, h, hd⟩, ?_⟩
  simp only [postIncrement, hd]
  cases r with
  | null =>
    simp only
    rw [hasc fuel (by omega), hr]
    simp [entries]
  | mk ra rk rv rp rl rr rh =>
    simp only
    rw [findMin_head, hr, List.head?_append_of_ne_nil _ (by simp [entries])]

/-- The loop `for (it = ...; it != end(); it++)` started at a node of a well-formed tree
ends and visits that node and the nodes after it, in in-order. -/
theorem traverse_spec {T : PNode K V} (hwf : WF T) {fuel : Nat} (hf : size T ≤ fuel) :
    ∀ (rest pre : List (Addr × K × V)) (n : Nat), entries T = pre ++ rest → rest.length ≤ n →
      traverse T fuel n (rest.head?.map Prod.fst) = some (.ok rest)
  | [], _, n, _, _ => by cases n <;> rfl
  | (a, k, v) :: rest, pre, n, he, hn => by
      obtain ⟨m, rfl⟩ : ∃ m, n = m + 1 := ⟨n - 1, by simp only [List.length_cons] at hn; omega⟩
      obtain ⟨⟨p, l, r, h, hd⟩, hnext⟩ := postIncrement_spec hwf he hf
      have ih := traverse_spec hwf hf rest (pre ++ [(a, k, v)]) m (by simp [he])
        (by simp only [List.length_cons] at hn; omega)
      simp only [List.head?_cons, Option.map_some', traverse, hd, hnext, ih]

theorem begin_eq_head (T : PNode K V) : begin T = (entries T).head?.map Prod.fst :=
  findMin_head T

/-- Forward iteration over a well-formed tree ends and visits all its nodes in in-order. -/
theorem iterate_spec {T : PNode K V} (hwf : WF T) {fuel : Nat} (hf : size T ≤ fuel) :
    iterate T fuel = some (.ok (entries T)) := by
  unfold iterate
  rw [begin_eq_head]
  exact traverse_spec hwf hf (entries T) [] fuel rfl (by rw [length_entries]; exact hf)

end PNode

/-! ## Backward iteration -/

namespace PNode
variable {K V : Type}

/-- The ascent of `operator--` that starts at the root of a subtree ends at the node that
precedes the subtree in in-order, or at the null pointer when nothing precedes it. -/
theorem ascendLeft_sub {T : PNode K V} (hwf : WF T) {s : PNode K V} (hs : Sub T s) :
    ∀ a k v p l r h, s = mk a k v p l r h →
      ∃ pre post, entries T = pre ++ entries s ++ post ∧
        ∀ fuel, size T ≤ fuel + size s →
          ascendLeft T fuel a p = some (.ok (pre.getLast?.map Prod.fst)) := by
  induction hs with
  | root =>
    intro a k v p l r h e
    subst e
    have hp : p = none := hwf.1.1
    subst hp
    exact ⟨[], [], by simp, fun fuel _ => ascendLeft_none _ fuel a⟩
  | @left na nk nv np nl nr nh hs' ih =>
    intro a k v p l r h e
    subst e
    obtain ⟨pre, post, he, hasc⟩ := ih na nk nv np _ nr nh rfl
    obtain ⟨q, hq⟩ := sub_linked hwf.1 hs'
    have hp : p = some na := hq.2.1.1
    subst hp
    refine ⟨pre, (na, nk, nv) :: entries nr ++ post, by simp [he, entries], ?_⟩
    intro fuel hf
    have hsz := sub_size hs'
    obtain ⟨f, rfl⟩ : ∃ f, fuel = f + 1 := ⟨fuel - 1, by simp only [size] at hsz hf; omega⟩
    have h1 : rootAddr (mk a k v (some na) l r h) = some a := rfl
    simp only [ascendLeft, deref_sub_mk hwf.2 hs', h1, if_true]
    exact hasc f (by simp only [size] at hsz hf ⊢; omega)
  | @right na nk nv np nl nr nh hs' ih =>
    intro a k v p l r h e
    subst e
    obtain ⟨pre, post, he, -⟩ := ih na nk nv np nl _ nh rfl
    obtain ⟨q, hq⟩ := sub_linked hwf.1 hs'
    have hp : p = some na := hq.2.2.1
    subst hp
    refine ⟨pre ++ entries nl ++ [(na, nk, nv)], post, by simp [he, entries], ?_⟩
    intro fuel hf
    have hsz := sub_size hs'
    have hn' := sub_nodup hs' hwf.2
    rw [addrs_mk] at hn'
    have hne : ¬ rootAddr nl = some a := by
      intro h0
      have h1 : a ∈ addrs (mk a k v (some na) l r h) := rootAddr_mem rfl
      exact (List.nodup_append.mp hn').2.2 (rootAddr_mem h0) (List.mem_cons_of_mem _ h1)
    obtain ⟨f, rfl⟩ : ∃ f, fuel = f + 1 := ⟨fuel - 1, by simp only [size] at hsz hf; omega⟩
    simp only [ascendLeft, deref_sub_mk hwf.2 hs', if_neg hne]
    simp

theorem getLast?_cons_of_ne_nil {α : Type} (x : α) {L : List α} (h : L ≠ []) :
    (x :: L).getLast? = L.getLast? := by
  cases L with
  | nil => exact absurd rfl h
  | cons y ys => simp [List.getLast?_cons_cons]

theorem findMax_last : ∀ t : PNode K V, rootAddr (findMax t) = (entries t).getLast?.map Prod.fst
  | null => rfl
  | mk a k v p l null h => by simp [findMax, entries, rootAddr]
  | mk a k v p l (mk ra rk rv rp rl rr rh) h => by
      have ih := findMax_last (mk ra rk rv rp rl rr rh)
      have hne : entries (mk ra rk rv rp rl rr rh) ≠ [] := by simp [entries]
      rw [findMax, ih]
      conv_rhs => rw [entries]
      rw [List.getLast?_append_of_ne_nil _ (by simp), getLast?_cons_of_ne_nil _ hne]


/-- In a well-formed tree `it--` moves `it` from a node to the node that precedes it in
in-order, and to the null pointer from the first node. -/
theorem postDecrement_spec {T : PNode K V} (hwf : WF T) {pre rest : List (Addr × K × V)}
    {a : Addr} {k : K} {v : V} (he : entries T = pre ++ (a, k, v) :: rest) {fuel : Nat}
    (hf : size T ≤ fuel) :
    (∃ p l r h, deref a T = mk a k v p l r h) ∧
      postDecrement T fuel (some a) = some (.ok (pre.getLast?.map Prod.fst)) := by
  have hm : a ∈ addrs T := by
    unfold addrs
    rw [he]
    simp
  obtain ⟨k', v', p, l, r, h, hs⟩ := exists_sub_of_mem a T hm
  obtain ⟨pre', post', he', hasc⟩ := ascendLeft_sub hwf hs a k' v' p l r h rfl
  have hn : ((pre ++ (a, k, v) :: rest).map Prod.fst).Nodup := by
    rw [← he]
    exact hwf.2
  have he2 : pre ++ (a, k, v) :: rest = (pre' ++ entries l) ++ (a, k', v') :: (entries r ++ post') := by
    rw [← he, he']
    simp [entries]
  obtain ⟨hp, hx, -⟩ := split_unique _ _ _ _ _ _ hn he2 rfl
  simp only [Prod.mk.injEq] at hx
  obtain ⟨-, rfl, rfl⟩ := hx
  have hd := deref_sub_mk hwf.2 hs
  refine ⟨⟨p, l, r, h, hd⟩, ?_⟩
  simp only [postDecrement, hd]
  cases l with
  | null =>
    simp only
    rw [hasc fuel (by omega), hp]
    simp [entries]
  | mk la lk lv lp ll lr lh =>
    simp only
    rw [findMax_last, hp, List.getLast?_append_of_ne_nil _ (by simp [entries])]

/-- The loop `for (it = ...; it != end(); it--)` started at a node of a well-formed tree
ends and visits that node and the nodes before it, in reverse in-order. -/
theorem traverseBack_spec {T : PNode K V} (hwf : WF T) {fuel : Nat} (hf : size T ≤ fuel) :
    ∀ (rp rest : List (Addr × K × V)) (n : Nat), entries T = rp.reverse ++ rest →
      rp.length ≤ n → traverseBack T fuel n (rp.head?.map Prod.fst) = some (.ok rp)
  | [], _, n, _, _ => by cases n <;> rfl
  | (a, k, v) :: rp, rest, n, he, hn => by
      obtain ⟨m, rfl⟩ : ∃ m, n = m + 1 := ⟨n - 1, by simp only [List.length_cons] at hn; omega⟩
      have he' : entries T = rp.reverse ++ (a, k, v) :: rest := by simp [he]
      obtain ⟨⟨p, l, r, h, hd⟩, hprev⟩ := postDecrement_spec hwf he' hf
      have ih := traverseBack_spec hwf hf rp ((a, k, v) :: rest) m he'
        (by simp only [List.length_cons] at hn; omega)
      rw [List.getLast?_reverse] at hprev
      simp only [List.head?_cons, Option.map_some', traverseBack, hd, hprev, ih]

theorem last_eq_getLast (T : PNode K V) : last T = (entries T).getLast?.map Prod.fst :=
  findMax_last T

/-- Backward iteration over a well-formed tree ends and visits all its nodes in reverse
in-order. -/
theorem iterateBack_spec {T : PNode K V} (hwf : WF T) {fuel : Nat} (hf : size T ≤ fuel) :
    iterateBack T fuel = some (.ok (entries T).reverse) := by
  unfold iterateBack
  rw [last_eq_getLast, ← List.head?_reverse]
  exact traverseBack_spec hwf hf (entries T).reverse [] fuel (by simp)
    (by rw [List.length_reverse, length_entries]; exact hf)

end PNode

/-! ## The loop of operator== and the copy constructor -/

namespace Node
variable {K V : Type}

theorem insertSorted_of_all_lt [LinearOrder K] (key : K) (value : V) :
    ∀ L : List (K × V), (∀ p ∈ L, p.1 < key) → insertSorted key value L = L ++ [(key, value)]
  | [], _ => rfl
  | p :: L, h => by
      have hp : ¬ key < p.1 := not_lt_of_gt (h p (List.mem_cons_self _ _))
      simp [insertSorted, hp,
        insertSorted_of_all_lt key value L (fun q hq => h q (List.mem_cons_of_mem _ hq))]

end Node

namespace PNode
variable {K V : Type}

theorem eqSpec_self [DecidableEq K] [DecidableEq V] : ∀ L : List (K × V), eqSpec L L = true
  | [] => rfl
  | p :: L => by simp [eqSpec, eqSpec_self L]

/-- The loop of `operator==` on two well-formed trees computes `eqSpec` of what is left of
the two in-order sequences. -/
theorem eqLoop_spec [DecidableEq K] [DecidableEq V] {T₁ T₂ : PNode K V} (h₁ : WF T₁)
    (h₂ : WF T₂) {fuel : Nat} (hf₁ : size T₁ ≤ fuel) (hf₂ : size T₂ ≤ fuel) :
    ∀ (rest₁ pre₁ rest₂ pre₂ : List (Addr × K × V)) (n : Nat), entries T₁ = pre₁ ++ rest₁ →
      entries T₂ = pre₂ ++ rest₂ → rest₁.length ≤ n →
      eqLoop T₁ T₂ fuel n (rest₁.head?.map Prod.fst) (rest₂.head?.map Prod.fst) =
        some (.ok (eqSpec (rest₁.map Prod.snd) (rest₂.map Prod.snd)))
  | [], _, _, _, n, _, _, _ => by cases n <;> rfl
  | (a₁, k₁, v₁) :: r₁, pre₁, [], _, n, _, _, hn => by
      obtain ⟨m, rfl⟩ : ∃ m, n = m + 1 := ⟨n - 1, by simp only [List.length_cons] at hn; omega⟩
      rfl
  | (a₁, k₁, v₁) :: r₁, pre₁, (a₂, k₂, v₂) :: r₂, pre₂, n, he₁, he₂, hn => by
      obtain ⟨m, rfl⟩ : ∃ m, n = m + 1 := ⟨n - 1, by simp only [List.length_cons] at hn; omega⟩
      obtain ⟨⟨p₁, l₁, c₁, g₁, hd₁⟩, hnext₁⟩ := postIncrement_spec h₁ he₁ hf₁
      obtain ⟨⟨p₂, l₂, c₂, g₂, hd₂⟩, hnext₂⟩ := postIncrement_spec h₂ he₂ hf₂
      have ih := eqLoop_spec h₁ h₂ hf₁ hf₂ r₁ (pre₁ ++ [(a₁, k₁, v₁)]) r₂ (pre₂ ++ [(a₂, k₂, v₂)]) m
        (by simp [he₁]) (by simp [he₂]) (by simp only [List.length_cons] at hn; omega)
      simp only [List.head?_cons, Option.map_some', eqLoop, hd₁, hd₂, hnext₁, hnext₂, ih,
        List.map_cons, eqSpec]
      split <;> rfl

/-- On two well-formed trees `operator==` ends and returns `eqSpec` of the two in-order
sequences of pairs. -/
theorem treeEq_spec [DecidableEq K] [DecidableEq V] {T₁ T₂ : PNode K V} (h₁ : WF T₁)
    (h₂ : WF T₂) {fuel : Nat} (hf₁ : size T₁ ≤ fuel) (hf₂ : size T₂ ≤ fuel) :
    treeEq T₁ T₂ fuel =
      some (.ok (eqSpec (Node.inorder (erase T₁)) (Node.inorder (erase T₂)))) := by
  rw [inorder_erase, inorder_erase]
  unfold treeEq
  split
  · rename_i h
    cases T₁ with
    | null => rfl
    | mk a k v p l r g => simp [rootAddr] at h
  · rw [begin_eq_head, begin_eq_head]
    exact eqLoop_spec h₁ h₂ hf₁ hf₂ (entries T₁) [] (entries T₂) [] fuel rfl rfl
      (by rw [length_entries]; exact hf₁)

theorem mem_addrs_insert [LinearOrder K] {fresh : Addr} {key : K} {value : V}
    {t t' : PNode K V} (e : insert fresh key value t = .ok t') {x : Addr} (hx : x ∈ addrs t') :
    x = fresh ∨ x ∈ addrs t := by
  unfold addrs at hx ⊢
  rcases entries_insert fresh key value t t' e with h | h
  · rw [h] at hx
    exact Or.inr hx
  · have := (h.map Prod.fst).mem_iff.mp hx
    simpa using this

/-- The loop of the copy constructor, started at a node of a tree built by insertions with
a new tree that holds the pairs before that node, ends with a tree built by insertions
that holds all the pairs of the source. -/
theorem copyLoop_spec [LinearOrder K] {alloc : Nat → Addr} (hinj : Function.Injective alloc)
    {T : PNode K V} (hwf : WF T) (hbst : Node.BST (erase T)) {fuel : Nat}
    (hf : size T ≤ fuel) :
    ∀ (rest pre : List (Addr × K × V)) (n i : Nat) (acc : PNode K V),
      entries T = pre ++ rest → rest.length ≤ n → Built acc →
      Node.inorder (erase acc) = pre.map Prod.snd →
      (∀ x ∈ addrs acc, ∃ j, j < i ∧ x = alloc j) →
      ∃ c, copyLoop alloc T fuel n i (rest.head?.map Prod.fst) acc = some (.ok c) ∧ Built c ∧
        Node.inorder (erase c) = (entries T).map Prod.snd
  | [], pre, n, i, acc, he, _, hb, hin, _ => by
      refine ⟨acc, by cases n <;> rfl, hb, ?_⟩
      rw [hin, he, List.append_nil]
  | (a, k, v) :: rest, pre, n, i, acc, he, hn, hb, hin, hal => by
      obtain ⟨m, rfl⟩ : ∃ m, n = m + 1 := ⟨n - 1, by simp only [List.length_cons] at hn; omega⟩
      obtain ⟨⟨p, l, r, h, hd⟩, hnext⟩ := postIncrement_spec hwf he hf
      obtain ⟨-, hbst', hbal', hok'⟩ := built_inv hb
      obtain ⟨nd, end', -⟩ := Node.insert_core k v (erase acc) hok' hbal'
      obtain ⟨acc', eacc, herase⟩ := insert_ok_of_erase (alloc i) end'
      have hfresh : alloc i ∉ addrs acc := by
        intro hm
        obtain ⟨j, hj, hji⟩ := hal _ hm
        have := hinj hji
        omega
      have hb' : Built acc' := Built.step (alloc i) k v hb hfresh eacc
      have hasc : Node.Ascending ((entries T).map Prod.snd) := by
        rw [← inorder_erase]
        exact (Node.BST_iff_ascending _).mp hbst
      rw [he, List.map_append, List.map_cons] at hasc
      simp only [Node.Ascending, List.pairwise_append, List.pairwise_cons, List.mem_cons] at hasc
      have hlt : ∀ q ∈ Node.inorder (erase acc), q.1 < k := by
        intro q hq
        rw [hin] at hq
        exact hasc.2.2 q hq (k, v) (Or.inl rfl)
      have hk : k ∉ Node.keys (erase acc) := by
        intro hm
        obtain ⟨w, hw⟩ := Node.mem_keys.mp hm
        exact lt_irrefl _ (hlt _ hw)
      have hin' : Node.inorder (erase acc') = (pre ++ [(a, k, v)]).map Prod.snd := by
        rw [herase, Node.inorder_insert k v (erase acc) nd hbst' hk end',
          Node.insertSorted_of_all_lt k v _ hlt, hin]
        simp
      have hal' : ∀ x ∈ addrs acc', ∃ j, j < i + 1 ∧ x = alloc j := by
        intro x hx
        rcases mem_addrs_insert eacc hx with rfl | hx
        · exact ⟨i, by omega, rfl⟩
        · obtain ⟨j, hj, hji⟩ := hal x hx
          exact ⟨j, by omega, hji⟩
      obtain ⟨c, hc, hbc, hinc⟩ := copyLoop_spec hinj hwf hbst hf rest (pre ++ [(a, k, v)]) m
        (i + 1) acc' (by simp [he]) (by simp only [List.length_cons] at hn; omega) hb' hin' hal'
      refine ⟨c, ?_, hbc, hinc⟩
      simp only [List.head?_cons, Option.map_some', copyLoop, hd, eacc, hnext, hc]

/-- The copy constructor, run on a well-formed BST-ordered tree with an allocator that
never returns an address twice, ends with a tree built by insertions that has the in-order
sequence of the source. -/
theorem copy_spec [LinearOrder K] {alloc : Nat → Addr} (hinj : Function.Injective alloc)
    {T : PNode K V} (hwf : WF T) (hbst : Node.BST (erase T)) {fuel : Nat}
    (hf : size T ≤ fuel) :
    ∃ c, copy alloc T fuel = some (.ok c) ∧ Built c ∧
      Node.inorder (erase c) = Node.inorder (erase T) := by
  unfold copy
  rw [begin_eq_head, inorder_erase T]
  exact copyLoop_spec hinj hwf hbst hf (entries T) [] fuel 0 null rfl
    (by rw [length_entries]; exact hf) Built.empty rfl
    (fun x hx => by simp [addrs, entries] at hx)

theorem size_eq_of_inorder_eq {T c : PNode K V}
    (h : Node.inorder (erase c) = Node.inorder (erase T)) : size c = size T := by
  rw [← length_entries, ← length_entries]
  have := congrArg List.length h
  rw [inorder_erase, inorder_erase, List.length_map, List.length_map] at this
  exact this

end PNode

/-! ## The claims on iteration, equality, copying, lookup by value and rotations -/

namespace PNode
variable {K V : Type}

theorem built_fourNodes : Built fourNodes := by
  have h1 : Built (mk 100 (2 : Int) "b" none null null 0) :=
    Built.step 100 2 "b" Built.empty (by decide) rfl
  have h2 : Built (mk 100 (2 : Int) "b" none (mk 101 1 "a" (some 100) null null 0) null 1) :=
    Built.step 101 1 "a" h1 (by decide) rfl
  have h3 : Built (mk 100 (2 : Int) "b" none (mk 101 1 "a" (some 100) null null 0)
      (mk 102 3 "c" (some 100) null null 0) 1) :=
    Built.step 102 3 "c" h2 (by decide) rfl
  exact Built.step 103 4 "d" h3 (by decide) rfl

theorem built_oneA : Built oneA :=
  Built.step 100 1 "a" Built.empty (by decide) rfl

theorem built_oneB : Built oneB :=
  Built.step 200 1 "b" Built.empty (by decide) rfl

theorem bump_injective : Function.Injective bump := by
  intro a b h
  exact Nat.add_left_cancel h

theorem begin_eq_none_iff (T : PNode K V) : begin T = none ↔ T = null := by
  rw [begin_eq_head]
  cases T with
  | null => simp [entries]
  | mk a k v p l r h =>
    have hne : entries (mk a k v p l r h) ≠ [] := by simp [entries]
    cases he : entries (mk a k v p l r h) with
    | nil => exact absurd he hne
    | cons x xs => simp

theorem ascending_entries [LinearOrder K] {T : PNode K V} (hb : Built T) :
    Node.Ascending ((entries T).map Prod.snd) := by
  rw [← inorder_erase]
  exact (Node.BST_iff_ascending _).mp (built_inv hb).2.1

/-- C11: on every tree built from the empty tree by insertions, the loop that starts at
`begin()` and applies `it++` until the null iterator ends (any fuel from the number of
nodes on is enough) and visits the in-order list of all nodes: no node twice, keys strictly
ascending.  `begin()` is the first node of that list, the one with the smallest key, and
it is null exactly when the tree is empty. -/
theorem iterate_built [LinearOrder K] (T : PNode K V) (hb : Built T) (fuel : Nat)
    (hf : size T ≤ fuel) :
    iterate T fuel = some (.ok (entries T)) ∧ (addrs T).Nodup ∧ (entries T).length = size T ∧
      Node.Ascending ((entries T).map Prod.snd) ∧
      begin T = (entries T).head?.map Prod.fst ∧ (begin T = none ↔ T = null) :=
  ⟨iterate_spec (built_inv hb).1 hf, (built_inv hb).1.2, length_entries T, ascending_entries hb,
    begin_eq_head T, begin_eq_none_iff T⟩

/-- Witness of C11: the tree built by inserting 2, 1, 3, 4. -/
theorem iterate_built_witness :
    iterate fourNodes 4 = some (.ok (entries fourNodes)) ∧ (addrs fourNodes).Nodup ∧
      (entries fourNodes).length = size fourNodes ∧
      Node.Ascending ((entries fourNodes).map Prod.snd) ∧
      begin fourNodes = (entries fourNodes).head?.map Prod.fst ∧
      (begin fourNodes = none ↔ fourNodes = null) :=
  iterate_built fourNodes built_fourNodes 4 (by decide)

/-- C12: on every tree built from the empty tree by insertions, the loop that starts at
`last()` and applies `it--` until the null iterator ends and visits the nodes that the
forward loop from `begin()` visits, in the reverse order; `last()` is the last node of the
forward order, the one with the largest key. -/
theorem iterateBack_built [LinearOrder K] (T : PNode K V) (hb : Built T) (fuel : Nat)
    (hf : size T ≤ fuel) :
    ∃ visited, iterate T fuel = some (.ok visited) ∧
      iterateBack T fuel = some (.ok visited.reverse) ∧
      Node.Ascending (visited.map Prod.snd) ∧ last T = visited.getLast?.map Prod.fst :=
  ⟨entries T, iterate_spec (built_inv hb).1 hf, iterateBack_spec (built_inv hb).1 hf,
    ascending_entries hb, last_eq_getLast T⟩

/-- Witness of C12: the tree built by inserting 2, 1, 3, 4. -/
theorem iterateBack_built_witness :
    ∃ visited, iterate fourNodes 4 = some (.ok visited) ∧
      iterateBack fourNodes 4 = some (.ok visited.reverse) ∧
      Node.Ascending (visited.map Prod.snd) ∧ last fourNodes = visited.getLast?.map Prod.fst :=
  iterateBack_built fourNodes built_fourNodes 4 (by decide)

/-- C13, evaluated on two pairs of trees built by insertions.  The trees `oneA` and `oneB`
hold the same key with different values, and `operator==` returns true: its test asks for
a different key and a different value.  The empty tree and `oneA` have in-order sequences
of different length, and `operator==` returns true: its loop runs over `tree1` only. -/
theorem treeEq_accepts_unequal :
    (Built oneA ∧ Built oneB ∧
      Node.inorder (erase oneA) ≠ Node.inorder (erase oneB) ∧
      treeEq oneA oneB 1 = some (.ok true)) ∧
    (Built (null : PNode Int String) ∧
      (Node.inorder (erase (null : PNode Int String))).length ≠
        (Node.inorder (erase oneA)).length ∧
      treeEq null oneA 1 = some (.ok true)) :=
  ⟨⟨built_oneA, built_oneB, by decide, rfl⟩, ⟨Built.empty, by decide, rfl⟩⟩

/-- C14: for every tree built by insertions, the copy constructor (run with an allocator
that never returns an address twice, and with fuel from the number of nodes on) ends with
a tree that has the in-order sequence of pairs of the source and is BST-ordered, balanced
and height-correct. -/
theorem copy_correct [LinearOrder K] (T : PNode K V) (hb : Built T) (alloc : Nat → Addr)
    (hinj : Function.Injective alloc) (fuel : Nat) (hf : size T ≤ fuel) :
    ∃ c, copy alloc T fuel = some (.ok c) ∧
      Node.inorder (erase c) = Node.inorder (erase T) ∧
      Node.BST (erase c) ∧ Node.Balanced (erase c) ∧ Node.HeightOK (erase c) := by
  obtain ⟨hwf, hbst, -, -⟩ := built_inv hb
  obtain ⟨c, hc, hbc, hin⟩ := copy_spec hinj hwf hbst hf
  exact ⟨c, hc, hin, (built_inv hbc).2⟩

/-- Witness of C14: the copy of the tree built by inserting 2, 1, 3, 4. -/
theorem copy_correct_witness :
    ∃ c, copy bump fourNodes 4 = some (.ok c) ∧
      Node.inorder (erase c) = Node.inorder (erase fourNodes) ∧
      Node.BST (erase c) ∧ Node.Balanced (erase c) ∧ Node.HeightOK (erase c) :=
  copy_correct fourNodes built_fourNodes bump bump_injective 4 (by decide)

/-- C15: for every tree built by insertions, `operator==` returns true when the tree is
compared with itself, and when it is compared with its copy, in both argument orders. -/
theorem treeEq_self_and_copy [LinearOrder K] [DecidableEq V] (T : PNode K V) (hb : Built T)
    (alloc : Nat → Addr) (hinj : Function.Injective alloc) (fuel : Nat) (hf : size T ≤ fuel) :
    treeEq T T fuel = some (.ok true) ∧
      ∃ c, copy alloc T fuel = some (.ok c) ∧ treeEq T c fuel = some (.ok true) ∧
        treeEq c T fuel = some (.ok true) := by
  obtain ⟨hwf, hbst, -, -⟩ := built_inv hb
  obtain ⟨c, hc, hbc, hin⟩ := copy_spec hinj hwf hbst hf
  have hwfc := (built_inv hbc).1
  have hfc : size c ≤ fuel := by rw [size_eq_of_inorder_eq hin]; exact hf
  refine ⟨?_, c, hc, ?_, ?_⟩
  · rw [treeEq_spec hwf hwf hf hf, eqSpec_self]
  · rw [treeEq_spec hwf hwfc hf hfc, hin, eqSpec_self]
  · rw [treeEq_spec hwfc hwf hfc hf, hin, eqSpec_self]

/-- Witness of C15: the tree built by inserting 2, 1, 3, 4 and its copy. -/
theorem treeEq_self_and_copy_witness :
    treeEq fourNodes fourNodes 4 = some (.ok true) ∧
      ∃ c, copy bump fourNodes 4 = some (.ok c) ∧ treeEq fourNodes c 4 = some (.ok true) ∧
        treeEq c fourNodes 4 = some (.ok true) :=
  treeEq_self_and_copy fourNodes built_fourNodes bump bump_injective 4 (by decide)

/-- C18, evaluated on one input: `fourNodes` is built by insertions, its parent fields are
consistent and it stores the key 3.  `remove(3)` returns a tree in which the node of key 4,
now the right child of the root, still has the address of the removed node as `parent`:
the parent fields are no longer consistent. -/
theorem remove_breaks_parent_links :
    Built fourNodes ∧ Linked none fourNodes ∧ (3 : Int) ∈ Node.keys (erase fourNodes) ∧
      removeKey 3 fourNodes = .ok fourNodesWithout3 ∧ ¬ Linked none fourNodesWithout3 :=
  ⟨built_fourNodes, by decide, by decide, rfl, by decide⟩

end PNode

namespace AVLTree
open Node

/-- C16, evaluated on one input: the tree built by inserting (2, 20), (1, 30), (3, 10)
stores the value 10 with the key 3, and `operator()(10)` throws `invalid_argument`: the
search goes left at the root because 10 is less than 20, and the value is on the right. -/
theorem call_misses_stored_value :
    insertAll (empty : AVLTree Int Int) [(2, 20), (1, 30), (3, 10)] = .ok descendingValues ∧
      ((3 : Int), (10 : Int)) ∈ inorder descendingValues.root ∧
      descendingValues.call 10 = .error Fault.invalidArgument :=
  ⟨rfl, by decide, rfl⟩

end AVLTree

namespace Node
variable {K V : Type}

/-- C17: for every tree that is BST-ordered, balanced and height-correct, and every key and
value, `insert` returns a tree in which every node stores
`1 + max(height(left), height(right))`, the height of the null tree being -1; the stored
height of the root is then the depth of the tree. -/
theorem insert_heightOK [LinearOrder K] (t : Node K V) (key : K) (value : V)
    (_hbst : BST t) (hbal : Balanced t) (hok : HeightOK t) :
    ∃ t', insert key value t = .ok t' ∧ HeightOK t' ∧ height t' = depth t' := by
  obtain ⟨t', e, ok', -⟩ := insert_core key value t hok hbal
  exact ⟨t', e, ok', height_eq_depth t' ok'⟩

/-- Witness of C17: inserting key 0 below the left-heavy tree 2 - 1 forces a rotation. -/
theorem insert_heightOK_witness :
    ∃ t', insert (0 : Int) "z" AVLTree.leftChain.root = .ok t' ∧ HeightOK t' ∧
      height t' = depth t' :=
  insert_heightOK _ _ _ (by decide) (by decide) (by decide)

/-- C19, evaluated on one input: `rightChain` has a right child and correct height fields
everywhere.  `singleLeftRotate` gives its new root the height 1, while the mirror image of
`singleRightRotate` on the mirrored tree gives it the height 2, which is the correct one:
the two results differ. -/
theorem singleLeftRotate_not_mirror :
    HeightOK rightChain ∧
      ∃ a b, singleLeftRotate rightChain = .ok a ∧
        singleRightRotate (mirror rightChain) = .ok b ∧
        mirror a ≠ b ∧ height a = 1 ∧ height b = 2 ∧ ¬ HeightOK a ∧ HeightOK b :=
  ⟨by decide, _, _, rfl, rfl, by decide, rfl, rfl, by decide, by decide⟩

/-- C20: each of the four rotations, applied to a node that has the child (for the double
rotations also the grandchild) it rotates around, returns a tree with the in-order
sequence of its argument; after `singleRightRotate` around `N` with left child `L`, `L` is
the root, `N` is the right child of `L`, and the former right child of `L` is the left
child of `N`. -/
theorem rotations_keep_inorder (k lk gk : K) (v lv gv : V) (a b c d : Node K V)
    (h lh gh : Int) :
    (∃ nh th, singleRightRotate (mk k v (mk lk lv a b lh) c h)
        = .ok (mk lk lv a (mk k v b c nh) th) ∧
      inorder (mk lk lv a (mk k v b c nh) th) = inorder (mk k v (mk lk lv a b lh) c h)) ∧
    (∃ nh th, singleLeftRotate (mk k v a (mk lk lv b c lh) h)
        = .ok (mk lk lv (mk k v a b nh) c th) ∧
      inorder (mk lk lv (mk k v a b nh) c th) = inorder (mk k v a (mk lk lv b c lh) h)) ∧
    (∃ t', doubleRightRotate (mk k v (mk lk lv a (mk gk gv b c gh) lh) d h) = .ok t' ∧
      inorder t' = inorder (mk k v (mk lk lv a (mk gk gv b c gh) lh) d h)) ∧
    (∃ t', doubleLeftRotate (mk k v a (mk lk lv (mk gk gv b c gh) d lh) h) = .ok t' ∧
      inorder t' = inorder (mk k v a (mk lk lv (mk gk gv b c gh) d lh) h)) := by
  refine ⟨⟨_, _, rfl, ?_⟩, ⟨_, _, rfl, ?_⟩, ⟨_, rfl, ?_⟩, ⟨_, rfl, ?_⟩⟩ <;>
    simp [inorder]

end Node

/-! ## Size against height, the relation computed by the equality operator, lookup by value, removal of a key that is not stored -/

namespace Node
variable {K V : Type}

theorem size_eq_length : ∀ t : Node K V, size t = (inorder t).length
  | null => rfl
  | mk _ _ l r _ => by
      simp only [size, inorder, List.length_append, List.length_cons, size_eq_length l,
        size_eq_length r]
      omega

/-- The least number of nodes of a balanced, height-correct tree of a given height. -/
theorem fib_le_size : ∀ t : Node K V, HeightOK t → Balanced t →
    Nat.fib (Int.toNat (height t + 3)) ≤ size t + 1
  | null, _, _ => by simp [height_null, size]
  | mk k v l r h, hok, hbal => by
      have ihl := fib_le_size l hok.2.1 hbal.2.1
      have ihr := fib_le_size r hok.2.2 hbal.2.2
      have hl := height_ge_of_heightOK l hok.2.1
      have hr := height_ge_of_heightOK r hok.2.2
      have h0 := hok.1
      have hb := hbal.1
      obtain ⟨a, ha⟩ : ∃ a : Nat, height l = (a : Int) - 1 := ⟨Int.toNat (height l + 1), by omega⟩
      obtain ⟨b, hb'⟩ : ∃ b : Nat, height r = (b : Int) - 1 := ⟨Int.toNat (height r + 1), by omega⟩
      have ea : Int.toNat (height l + 3) = a + 2 := by omega
      have eb : Int.toNat (height r + 3) = b + 2 := by omega
      rw [ea] at ihl
      rw [eb] at ihr
      rw [height_mk]
      simp only [size]
      have hcases : a = b ∨ a = b + 1 ∨ b = a + 1 := by omega
      rcases hcases with e | e | e
      · subst e
        have et : Int.toNat (h + 3) = a + 3 := by omega
        have key : Nat.fib (a + 3) = Nat.fib (a + 1) + Nat.fib (a + 2) := Nat.fib_add_two
        have hm : Nat.fib (a + 1) ≤ Nat.fib (a + 2) := Nat.fib_mono (by omega)
        rw [et, key]
        omega
      · subst e
        have et : Int.toNat (h + 3) = b + 4 := by omega
        have key : Nat.fib (b + 4) = Nat.fib (b + 2) + Nat.fib (b + 3) := Nat.fib_add_two
        have e3 : b + 1 + 2 = b + 3 := rfl
        rw [e3] at ihl
        rw [et, key]
        omega
      · subst e
        have et : Int.toNat (h + 3) = a + 4 := by omega
        have key : Nat.fib (a + 4) = Nat.fib (a + 2) + Nat.fib (a + 3) := Nat.fib_add_two
        have e3 : a + 1 + 2 = a + 3 := rfl
        rw [e3] at ihr
        rw [et, key]
        omega

theorem findValue_sound [LinearOrder V] (value : V) :
    ∀ (t : Node K V) (k : K) (v : V) (l r : Node K V) (h : Int),
      findValue value t = mk k v l r h →
        v = value ∧ Inside (mk k v l r h) t ∧ (k, v) ∈ inorder t
  | null, _, _, _, _, _, e => by simp [findValue] at e
  | mk k0 v0 l0 r0 h0, k, v, l, r, h, e => by
      unfold findValue at e
      split at e
      · rename_i hv
        injection e with e1 e2 e3 e4 e5
        subst e1 e2 e3 e4 e5
        exact ⟨hv, Inside.root _, by simp [inorder]⟩
      · split at e
        · obtain ⟨h1, h2, h3⟩ := findValue_sound value r0 k v l r h e
          exact ⟨h1, Inside.right _ _ _ _ _ h2, by simp [inorder, h3]⟩
        · obtain ⟨h1, h2, h3⟩ := findValue_sound value l0 k v l r h e
          exact ⟨h1, Inside.left _ _ _ _ _ h2, by simp [inorder, h3]⟩

theorem removeFix_balanced (k : K) (v : V) (l r : Node K V) (h : Int)
    (h0 : h = 1 + max (height l) (height r)) (hb : (height l - height r).natAbs ≤ 1) :
    removeFix (mk k v l r h) = .ok (mk k v l r h) := by
  have h1 : ¬ height l - height r = 2 := by omega
  have h2 : ¬ height r - height l = 2 := by omega
  have h3 : max (height l) (height r) + 1 = h := by omega
  simp only [removeFix, if_neg h1, if_neg h2, h3]

/-- C24: for every tree that is BST-ordered, balanced and height-correct, every key that is
not stored in it and every value argument, the recursive `remove(key, value, node)` returns
the tree it was given: same shape, keys, values and height fields. -/
theorem remove_absent [LinearOrder K] (key : K) (value : V) (t : Node K V) (hbst : BST t)
    (hbal : Balanced t) (hok : HeightOK t) (hk : key ∉ keys t) :
    remove key value t = .ok t := by
  induction t with
  | null => rfl
  | mk k v l r h ihl ihr =>
    rw [keys_mk] at hk
    simp only [List.mem_append, List.mem_cons, not_or] at hk
    obtain ⟨hkl, hne, hkr⟩ := hk
    rcases lt_or_gt_of_ne hne with hlt | hgt
    · rw [remove_of_lt key value k v l r h hlt, ihl hbst.2.2.1 hbal.2.1 hok.2.1 hkl]
      exact removeFix_balanced k v l r h hok.1 hbal.1
    · rw [remove_of_gt key value k v l r h hgt, ihr hbst.2.2.2 hbal.2.2 hok.2.2 hkr]
      exact removeFix_balanced k v l r h hok.1 hbal.1

/-- Witness of C24: the key 3 is not stored in the tree with the keys 1, 2, 5. -/
theorem remove_absent_witness :
    remove (3 : Int) "x" AVLTree.threeNodes.root = .ok AVLTree.threeNodes.root :=
  remove_absent 3 "x" AVLTree.threeNodes.root (by decide) (by decide) (by decide) (by decide)

end Node

namespace AVLTree
open Node
variable {K V : Type}

theorem insertAll_invariants [LinearOrder K] :
    ∀ (ps : List (K × V)) (t : AVLTree K V), HeightOK t.root → Balanced t.root →
      ∃ t', insertAll t ps = .ok t' ∧ HeightOK t'.root ∧ Balanced t'.root
  | [], t, hok, hb => ⟨t, rfl, hok, hb⟩
  | (k, v) :: ps, t, hok, hb => by
      obtain ⟨r', e, okr, br, -⟩ := insert_core k v t.root hok hb
      obtain ⟨t', e', h'⟩ := insertAll_invariants ps ⟨r'⟩ okr br
      refine ⟨t', ?_, h'⟩
      simp only [insertAll, AVLTree.insert, e]
      exact e'

/-- C21: every sequence of inserts into the empty tree returns a tree, and if that tree
has `n` nodes and the height field `h` of its root (-1 for the empty tree, 0 for a leaf),
then `Fib(h + 3) ≤ n + 1`, where `Fib(1) = Fib(2) = 1`.  The height field of the root is
the depth of the tree. -/
theorem insertAll_fib [LinearOrder K] (ps : List (K × V)) :
    ∃ t, insertAll (empty : AVLTree K V) ps = .ok t ∧
      -1 ≤ height t.root ∧ height t.root = depth t.root ∧
      Nat.fib (Int.toNat (height t.root + 3)) ≤ size t.root + 1 := by
  obtain ⟨t, e, hok, hbal⟩ := insertAll_invariants ps (empty : AVLTree K V) trivial trivial
  exact ⟨t, e, height_ge_of_heightOK _ hok, height_eq_depth _ hok, fib_le_size _ hok hbal⟩

/-- C23: on every tree, whenever `searchValue(value)` returns a node, that node belongs to
the tree and stores `value`; and whenever `operator()(value)` returns a key `k`, the tree
holds a node with the key `k` and the value `value`. -/
theorem call_sound [LinearOrder V] (t : AVLTree K V) (value : V) :
    (∀ (k : K) (v : V) (l r : Node K V) (h : Int),
        t.searchValue value = Node.mk k v l r h →
          v = value ∧ Inside (Node.mk k v l r h) t.root ∧ (k, v) ∈ inorder t.root) ∧
      (∀ k : K, t.call value = .ok k → (k, value) ∈ inorder t.root) := by
  refine ⟨fun k v l r h e => findValue_sound value t.root k v l r h e, ?_⟩
  intro k e
  unfold call at e
  split at e
  · cases e
  · rename_i k' v' l' r' h' hs
    injection e with e
    subst e
    obtain ⟨h1, -, h3⟩ := findValue_sound value t.root k' v' l' r' h' hs
    rw [h1] at h3
    exact h3

/-- Witness of C23: in the tree of the pairs (1, 10), (2, 20), (3, 30), `operator()(30)`
returns the key 3, and the pair (3, 30) is stored. -/
theorem call_sound_witness :
    ascendingValues.call 30 = .ok 3 ∧ ((3 : Int), (30 : Int)) ∈ inorder ascendingValues.root :=
  ⟨rfl, (call_sound ascendingValues 30).2 3 rfl⟩

end AVLTree

namespace PNode
variable {K V : Type}

theorem eqSpec_iff [DecidableEq K] [DecidableEq V] :
    ∀ s₁ s₂ : List (K × V), eqSpec s₁ s₂ = true ↔
      s₁.length ≤ s₂.length ∧
        ∀ (i : Nat) (h₁ : i < s₁.length) (h₂ : i < s₂.length),
          (s₁.get ⟨i, h₁⟩).1 = (s₂.get ⟨i, h₂⟩).1 ∨ (s₁.get ⟨i, h₁⟩).2 = (s₂.get ⟨i, h₂⟩).2
  | [], s₂ => by simp [eqSpec]
  | _ :: _, [] => by simp [eqSpec]
  | p :: ps, q :: qs => by
      have ih := eqSpec_iff ps qs
      unfold eqSpec
      split
      · rename_i hne
        constructor
        · intro hf
          cases hf
        · rintro ⟨-, hall⟩
          have h0 := hall 0 (by simp) (by simp)
          simp only [List.get_eq_getElem, List.getElem_cons_zero] at h0
          rcases h0 with h0 | h0
          · exact absurd h0.symm hne.1
          · exact absurd h0.symm hne.2
      · rename_i hne
        rw [ih]
        constructor
        · rintro ⟨hlen, hall⟩
          refine ⟨by simpa using hlen, ?_⟩
          intro i h₁ h₂
          cases i with
          | zero =>
            simp only [List.get_eq_getElem, List.getElem_cons_zero]
            by_cases hk : q.1 = p.1
            · exact Or.inl hk.symm
            · by_cases hv : q.2 = p.2
              · exact Or.inr hv.symm
              · exact absurd ⟨hk, hv⟩ hne
          | succ j =>
            simp only [List.length_cons, Nat.add_lt_add_iff_right] at h₁ h₂
            simpa using hall j h₁ h₂
        · rintro ⟨hlen, hall⟩
          refine ⟨by simpa using hlen, ?_⟩
          intro i h₁ h₂
          simpa using hall (i + 1) (by simpa using h₁) (by simpa using h₂)

/-- C22: for every two trees built by insertions, with the in-order sequences `s₁` and
`s₂`, `operator==(tree1, tree2)` ends (any fuel from the two numbers of nodes on is enough)
and returns true exactly when `s₁` is not longer than `s₂` and at every position of `s₁`
the two keys are equal or the two values are equal; an empty `tree1` compares equal to
every `tree2`. -/
theorem treeEq_iff [LinearOrder K] [DecidableEq V] (T₁ T₂ : PNode K V) (hb₁ : Built T₁)
    (hb₂ : Built T₂) (fuel : Nat) (hf₁ : size T₁ ≤ fuel) (hf₂ : size T₂ ≤ fuel) :
    (∃ b, treeEq T₁ T₂ fuel = some (.ok b) ∧
      (b = true ↔
        (Node.inorder (erase T₁)).length ≤ (Node.inorder (erase T₂)).length ∧
          ∀ (i : Nat) (h₁ : i < (Node.inorder (erase T₁)).length)
            (h₂ : i < (Node.inorder (erase T₂)).length),
            ((Node.inorder (erase T₁)).get ⟨i, h₁⟩).1 = ((Node.inorder (erase T₂)).get ⟨i, h₂⟩).1 ∨
              ((Node.inorder (erase T₁)).get ⟨i, h₁⟩).2 =
                ((Node.inorder (erase T₂)).get ⟨i, h₂⟩).2)) ∧
      treeEq null T₂ fuel = some (.ok true) := by
  have w₁ := (built_inv hb₁).1
  have w₂ := (built_inv hb₂).1
  refine ⟨⟨_, treeEq_spec w₁ w₂ hf₁ hf₂, eqSpec_iff _ _⟩, ?_⟩
  have w₀ : WF (null : PNode K V) := (built_inv Built.empty).1
  rw [treeEq_spec w₀ w₂ (Nat.zero_le _) hf₂]
  rfl

/-- Witness of C22: the one-node tree of the pair (1, "a") against the tree built by
inserting 2, 1, 3, 4. -/
theorem treeEq_iff_witness :
    (∃ b, treeEq oneA fourNodes 4 = some (.ok b) ∧
      (b = true ↔
        (Node.inorder (erase oneA)).length ≤ (Node.inorder (erase fourNodes)).length ∧
          ∀ (i : Nat) (h₁ : i < (Node.inorder (erase oneA)).length)
            (h₂ : i < (Node.inorder (erase fourNodes)).length),
            ((Node.inorder (erase oneA)).get ⟨i, h₁⟩).1 =
                ((Node.inorder (erase fourNodes)).get ⟨i, h₂⟩).1 ∨
              ((Node.inorder (erase oneA)).get ⟨i, h₁⟩).2 =
                ((Node.inorder (erase fourNodes)).get ⟨i, h₂⟩).2)) ∧
      treeEq null fourNodes 4 = some (.ok true) :=
  treeEq_iff oneA fourNodes built_oneA built_fourNodes 4 (by decide) (by decide)

end PNode
